import Mathlib

/-!
Shallow embedding of `core/src/fenwick.rs`: a bounded-domain integer set
(`FenwickSet`) backed by a 0-indexed Fenwick (binary indexed) tree
(`FenwickTree`), together with proofs of the specification claims about it.

Modelling conventions:
* `Vec<i32>` becomes `List Int`.  The `i32` counters never overflow in any
  state reachable through the set interface (values are bounded by the
  capacity, which is at most 50 000 000 < 2^31), so plain `Int` is faithful
  there.  The one place where 32-bit wrap-around is observable — the cast
  `n as i32 + 1` inside `FenwickSet::nth` — is modelled explicitly with
  `i32ofNat` / `i32wrap` (release-mode two's-complement wrapping).
* `usize`/`isize` loop indices stay in `[0, len + 1]`, far from any machine
  bound, and become `Nat`.
* `idx & -idx` (two's-complement lowest set bit of a positive index) is
  modelled by `lowbitN`; the bridge lemma `lowbit_int_eq_lowbitN` proves it
  equal to the literal two's-complement expression `idx & -idx` on `Int`
  (`lowbit`).
* Each `while` loop becomes a function that is structurally recursive on an
  explicit fuel argument, so that every definition is executable by the
  kernel; the wrapper passes fuel that provably dominates the iteration
  count, and an `_eq` theorem restates each loop as its literal
  source-shaped unfolding, independent of fuel.  All reasoning is done from
  those `_eq` equations.
* The Rust `assert!` in `with_capacity` (a panic) is modelled by returning
  `none`; indexing panics are modelled by the `Option`-valued checked
  variants (`sumLoopC`, …) used for the totality claim C9.
-/

/-- Bitwise AND on mathematical integers with two's-complement semantics for
negative arguments (`-(n+1)` has the bit pattern of the complement of `n`);
this is exactly the machine `&` of the source on `isize` values. -/
def intAnd : Int → Int → Int
  | .ofNat m, .ofNat n => .ofNat (m &&& n)
  | .ofNat m, .negSucc n => .ofNat (Nat.ldiff m n)
  | .negSucc m, .ofNat n => .ofNat (Nat.ldiff n m)
  | .negSucc m, .negSucc n => .negSucc (m ||| n)

/-- `idx & -idx` on a machine integer, written on `Int` exactly as in the
source (`idx += idx & -idx`, `idx -= idx & -idx`). -/
def lowbit (idx : Int) : Int := intAnd idx (-idx)

/-- Fuelled computation of the lowest set bit of a natural number. -/
def lowbitAux : Nat → Nat → Nat
  | 0, _ => 0
  | fuel + 1, n => if n = 0 then 0 else if n % 2 = 1 then 1 else 2 * lowbitAux fuel (n / 2)

/-- Lowest set bit of a natural number (`lowbitN 0 = 0`); the `Nat`
counterpart of `lowbit` used inside the loop bodies.  `lowbit_int_eq_lowbitN`
proves the two agree on positive indices. -/
def lowbitN (n : Nat) : Nat := lowbitAux n n

/-- simple 0-indexed fenwick tree (struct `FenwickTree { inner: Vec<i32>, len: isize }`;
`len` is always non-negative, so it is a `Nat` here). -/
structure FenwickTree where
  inner : List Int
  len : Nat
  deriving Repr, DecidableEq

/-- `FenwickTree::new(length)`: `inner = vec![0; length + 1]`. -/
def FenwickTree.new (length : Nat) : FenwickTree :=
  { inner := List.replicate (length + 1) 0, len := length }

/-- Fuelled loop of `FenwickTree::add`:
`while idx <= len { inner[idx] += plus; idx += idx & -idx }`. -/
def addLoopAux : Nat → List Int → Nat → Int → Nat → List Int
  | 0, inner, _, _, _ => inner
  | fuel + 1, inner, len, plus, idx =>
    if idx ≤ len then
      addLoopAux fuel (inner.set idx (inner.getD idx 0 + plus)) len plus (idx + lowbitN idx)
    else inner

/-- Loop of `FenwickTree::add` (fuel `len + 1` dominates the iteration count
whenever the entry index is positive, which it always is: `add` enters at
`idx + 1`). -/
def addLoop (inner : List Int) (len : Nat) (plus : Int) (idx : Nat) : List Int :=
  addLoopAux (len + 1) inner len plus idx

/-- `FenwickTree::add(idx, plus)`: add `plus` to position `idx` (0-indexed);
the loop starts at `(idx + 1) as isize`. -/
def FenwickTree.add (t : FenwickTree) (idx : Nat) (plus : Int) : FenwickTree :=
  { t with inner := addLoop t.inner t.len plus (idx + 1) }

/-- Fuelled loop of `FenwickTree::sum`:
`while idx > 0 { sum += inner[idx]; idx -= idx & -idx }`. -/
def sumLoopAux : Nat → List Int → Nat → Int
  | 0, _, _ => 0
  | fuel + 1, inner, idx =>
    if 0 < idx then inner.getD idx 0 + sumLoopAux fuel inner (idx - lowbitN idx)
    else 0

/-- Loop of `FenwickTree::sum` (fuel `idx` dominates the iteration count). -/
def sumLoop (inner : List Int) (idx : Nat) : Int := sumLoopAux idx inner idx

/-- `FenwickTree::sum(range_max)`: sum of the underlying array over `0..range_max`. -/
def FenwickTree.sum (t : FenwickTree) (range_max : Nat) : Int :=
  sumLoop t.inner range_max

/-- `FenwickTree::sum_range(range)`: `sum(range.end)` when `range.start == 0`,
else `sum(range.end) - sum(range.start)`. -/
def FenwickTree.sum_range (t : FenwickTree) (start stop : Nat) : Int :=
  let sum1 := t.sum stop
  if start = 0 then sum1 else sum1 - t.sum start

/-- Fuelled first loop of `FenwickTree::lower_bound`:
`let mut k = 1; while k <= len { k *= 2; }`. -/
def lbInitKAux : Nat → Nat → Nat → Nat
  | 0, _, k => k
  | fuel + 1, len, k => if k ≤ len then lbInitKAux fuel len (2 * k) else k

/-- First loop of `FenwickTree::lower_bound` (fuel `len + 1` dominates the
iteration count for the actual entry value `k = 1`). -/
def lbInitK (len k : Nat) : Nat := lbInitKAux (len + 1) len k

/-- Fuelled second loop of `FenwickTree::lower_bound`:
`while k > 0 { k /= 2; let nxt = cur + k; if nxt > len { continue; }
  let val = inner[nxt]; if val < query { query -= val; cur += k; } }`. -/
def lbLoopAux : Nat → List Int → Nat → Nat → Nat → Int → Nat
  | 0, _, _, _, cur, _ => cur
  | fuel + 1, inner, len, k, cur, query =>
    if k = 0 then cur
    else
      let k2 := k / 2
      let nxt := cur + k2
      if nxt > len then lbLoopAux fuel inner len k2 cur query
      else
        let val := inner.getD nxt 0
        if val < query then lbLoopAux fuel inner len k2 (cur + k2) (query - val)
        else lbLoopAux fuel inner len k2 cur query

/-- Second loop of `FenwickTree::lower_bound` (fuel `k` dominates the
iteration count, since `k` at least halves every iteration). -/
def lbLoop (inner : List Int) (len : Nat) (k cur : Nat) (query : Int) : Nat :=
  lbLoopAux k inner len k cur query

/-- `FenwickTree::lower_bound(query)`. -/
def FenwickTree.lower_bound (t : FenwickTree) (query : Int) : Nat :=
  if query ≤ 0 then 0
  else lbLoop t.inner t.len (lbInitK t.len 1) 0 query

/-- Two's-complement wrap of an integer into the `i32` range
`[-2^31, 2^31)`; release-mode Rust semantics of `i32` overflow. -/
def i32wrap (x : Int) : Int := (x + 2 ^ 31) % 2 ^ 32 - 2 ^ 31

/-- The cast `n as i32` from a 64-bit `usize`: truncate to 32 bits and
reinterpret as signed. -/
def i32ofNat (n : Nat) : Int := i32wrap n

/-- a set implementation using Fenwick Tree
(struct `FenwickSet { inner: FenwickTree, num_elements: usize, max_val_excluded: usize }`). -/
structure FenwickSet where
  inner : FenwickTree
  num_elements : Nat
  max_val_excluded : Nat
  deriving Repr, DecidableEq

/-- `FenwickSet::with_capacity(n)`: asserts `n <= 50_000_000` (a panic,
modelled as `none`) and otherwise builds the empty set over `[0, n)`. -/
def FenwickSet.with_capacity (n : Nat) : Option FenwickSet :=
  if n ≤ 50000000 then
    some { inner := FenwickTree.new n, num_elements := 0, max_val_excluded := n }
  else none

/-- `FenwickSet::contains(elem)`. -/
def FenwickSet.contains (s : FenwickSet) (elem : Nat) : Bool :=
  if s.max_val_excluded ≤ elem then false
  else decide (s.inner.sum_range elem (elem + 1) = 1)

/-- `FenwickSet::insert(elem)`: returns the Rust `bool` together with the
updated set (Rust mutates `self` in place). -/
def FenwickSet.insert (s : FenwickSet) (elem : Nat) : Bool × FenwickSet :=
  if s.max_val_excluded ≤ elem ∨ s.contains elem then (false, s)
  else
    (true, { s with inner := s.inner.add elem 1, num_elements := s.num_elements + 1 })

/-- `FenwickSet::remove(elem)`: returns the Rust `bool` together with the
updated set. -/
def FenwickSet.remove (s : FenwickSet) (elem : Nat) : Bool × FenwickSet :=
  if s.max_val_excluded ≤ elem ∨ ¬s.contains elem ∨ s.num_elements = 0 then (false, s)
  else
    (true, { s with inner := s.inner.add elem (-1), num_elements := s.num_elements - 1 })

/-- `FenwickSet::from_range(range)`: `with_capacity(range.end)` then insert
every element of `range.start..range.end`. -/
def FenwickSet.from_range (start stop : Nat) : Option FenwickSet :=
  (FenwickSet.with_capacity stop).map fun s0 =>
    (List.range' start (stop - start)).foldl (fun s i => (s.insert i).2) s0

/-- `FenwickSet::nth(n)`: `lower_bound(n as i32 + 1)`, `None` when the result
reaches `max_val_excluded`.  The query is computed in wrapping 32-bit
arithmetic, exactly as released Rust does. -/
def FenwickSet.nth (s : FenwickSet) (n : Nat) : Option Nat :=
  let res := s.inner.lower_bound (i32wrap (i32ofNat n + 1))
  if s.max_val_excluded ≤ res then none else some res

/-- `FenwickSet::len()`. -/
def FenwickSet.len (s : FenwickSet) : Nat := s.num_elements

/-- `FenwickSet::select(rng)`: the randomness capability `rng.gen_range(0, n)`
is modelled by a caller-supplied function `draw` with `draw n ∈ [0, n)`. -/
def FenwickSet.select (s : FenwickSet) (draw : Nat → Nat) : Option Nat :=
  if s.num_elements = 0 then none
  else s.nth (draw s.num_elements)

/-- Fuelled loop of `fws_iter_next(fwt, current, before)`:
`while current < len { current += 1; let sum = fwt.sum(current);
  let diff = sum - before; before = sum;
  if diff == 1 { return Some(current - 1); } } None`. -/
def fwsIterNextAux : Nat → FenwickTree → Nat → Int → Option Nat × Nat × Int
  | 0, _, current, before => (none, current, before)
  | fuel + 1, fwt, current, before =>
    if current < fwt.len then
      let c := current + 1
      let sum := fwt.sum c
      let diff := sum - before
      if diff = 1 then (some (c - 1), c, sum)
      else fwsIterNextAux fuel fwt c sum
    else (none, current, before)

/-- `fws_iter_next(fwt, current, before)`: advance the iterator cursor to the
next present element; returns the yielded value (if any) together with the
updated `(current, before)` cursor, exactly as the Rust function mutates its
two `&mut` arguments.  Fuel `len - current` dominates the iteration count. -/
def fws_iter_next (fwt : FenwickTree) (current : Nat) (before : Int) :
    Option Nat × Nat × Int :=
  fwsIterNextAux (fwt.len - current) fwt current before

/-- Fuelled collection of the full iterator stream. -/
def iterFromAux : Nat → FenwickTree → Nat → Int → List Nat
  | 0, _, _, _ => []
  | fuel + 1, fwt, current, before =>
    if current < fwt.len then
      let c := current + 1
      let sum := fwt.sum c
      let diff := sum - before
      if diff = 1 then (c - 1) :: iterFromAux fuel fwt c sum
      else iterFromAux fuel fwt c sum
    else []

/-- The full stream produced by repeatedly calling `fws_iter_next` until it
returns `None` (what `FwsIter` / `FwsIntoIter` yield when collected, e.g. by
the repository's own differential tests). `iterFrom_eq_next` proves this is
the unfolding of `fws_iter_next`. -/
def iterFrom (fwt : FenwickTree) (current : Nat) (before : Int) : List Nat :=
  iterFromAux (fwt.len - current) fwt current before

/-- `FenwickSet::iter()` / `into_iter()`, collected into a list: both flavours
start the cursor at `current = 0, before = 0` over the same tree. -/
def FenwickSet.iterOut (s : FenwickSet) : List Nat := iterFrom s.inner 0 0

/-! ### Abstract array semantics of the tree -/

/-- Prefix sum of the abstract per-position array: `psum a n = a 0 + ⋯ + a (n-1)`. -/
def psum (a : Nat → Int) (n : Nat) : Int := (Finset.range n).sum a

/-- Well-formedness of a tree with respect to an abstract per-position array
`a`: correct storage length, and every 1-indexed node `i` stores the sum of
`a` over its covering interval `[i - lowbit i, i)`. -/
def Wf (t : FenwickTree) (a : Nat → Int) : Prop :=
  t.inner.length = t.len + 1 ∧
  ∀ i, 1 ≤ i → i ≤ t.len → t.inner.getD i 0 = psum a i - psum a (i - lowbitN i)

/-! ### The set-level invariant -/

/-- Invariant tying a reachable `FenwickSet` to an abstract 0/1 array `a`:
the tree is well-formed over `a`, the tree length is the capacity, `a` is a
0/1 indicator vanishing outside the domain, and the cached cardinality counts
the ones. -/
def SetInv (s : FenwickSet) (a : Nat → Int) : Prop :=
  s.max_val_excluded ≤ 50000000 ∧
  Wf s.inner a ∧
  s.inner.len = s.max_val_excluded ∧
  (∀ v, a v = 0 ∨ a v = 1) ∧
  (∀ v, s.max_val_excluded ≤ v → a v = 0) ∧
  s.num_elements = ((Finset.range s.max_val_excluded).filter (fun v => a v = 1)).card

/-- States reachable from construction through any sequence of `insert` and
`remove` calls. -/
inductive Reachable : FenwickSet → Prop
  | init (n : Nat) (s : FenwickSet) : FenwickSet.with_capacity n = some s → Reachable s
  | ins (s : FenwickSet) (v : Nat) : Reachable s → Reachable (s.insert v).2
  | rem (s : FenwickSet) (v : Nat) : Reachable s → Reachable (s.remove v).2

/-! ### Differential refinement against a mathematical set -/

/-- One step of the differential test: an insert or a remove of a value. -/
inductive Op where
  | ins (v : Nat) : Op
  | del (v : Nat) : Op
  deriving Repr, DecidableEq

/-- The value addressed by an operation. -/
def Op.val : Op → Nat
  | .ins v => v
  | .del v => v

/-- Run a sequence of operations against the Fenwick-backed set. -/
def runOps (s : FenwickSet) (ops : List Op) : FenwickSet :=
  ops.foldl (fun s op => match op with
    | .ins v => (s.insert v).2
    | .del v => (s.remove v).2) s

/-- Run the same sequence against the reference model: a mathematical finite
set of integers (`insert` adds, `remove` erases). -/
def runRef (S : Finset Nat) (ops : List Op) : Finset Nat :=
  ops.foldl (fun S op => match op with
    | .ins v => insert v S
    | .del v => S.erase v) S

/-! ### Checked variants: every `Vec` index access is bounds-checked

The Rust `Vec` indexing `self.inner[idx]` panics when `idx` is out of
bounds.  The functions below mirror the operations with every such access
made explicit in `Option`: a `none` result marks an out-of-bounds access
(i.e. a panic).  The totality claim C9 proves they return `some` of the
unchecked result on every reachable state. -/

def addLoopCAux : Nat → List Int → Nat → Int → Nat → Option (List Int)
  | 0, inner, _, _, _ => some inner
  | fuel + 1, inner, len, plus, idx =>
    if idx ≤ len then
      match inner[idx]? with
      | none => none
      | some v => addLoopCAux fuel (inner.set idx (v + plus)) len plus (idx + lowbitN idx)
    else some inner

def FenwickTree.addC (t : FenwickTree) (idx : Nat) (plus : Int) : Option FenwickTree :=
  (addLoopCAux (t.len + 1) t.inner t.len plus (idx + 1)).map
    fun inner => { t with inner := inner }

def sumLoopCAux : Nat → List Int → Nat → Option Int
  | 0, _, _ => some 0
  | fuel + 1, inner, idx =>
    if 0 < idx then
      match inner[idx]? with
      | none => none
      | some v =>
        match sumLoopCAux fuel inner (idx - lowbitN idx) with
        | none => none
        | some rest => some (v + rest)
    else some 0

def FenwickTree.sumC (t : FenwickTree) (range_max : Nat) : Option Int :=
  sumLoopCAux range_max t.inner range_max

def FenwickTree.sum_rangeC (t : FenwickTree) (start stop : Nat) : Option Int :=
  match t.sumC stop with
  | none => none
  | some sum1 =>
    if start = 0 then some sum1
    else
      match t.sumC start with
      | none => none
      | some sum2 => some (sum1 - sum2)

def lbLoopCAux : Nat → List Int → Nat → Nat → Nat → Int → Option Nat
  | 0, _, _, _, cur, _ => some cur
  | fuel + 1, inner, len, k, cur, query =>
    if k = 0 then some cur
    else
      let k2 := k / 2
      let nxt := cur + k2
      if nxt > len then lbLoopCAux fuel inner len k2 cur query
      else
        match inner[nxt]? with
        | none => none
        | some val =>
          if val < query then lbLoopCAux fuel inner len k2 (cur + k2) (query - val)
          else lbLoopCAux fuel inner len k2 cur query

def FenwickTree.lower_boundC (t : FenwickTree) (query : Int) : Option Nat :=
  if query ≤ 0 then some 0
  else lbLoopCAux (lbInitK t.len 1) t.inner t.len (lbInitK t.len 1) 0 query

def FenwickSet.containsC (s : FenwickSet) (elem : Nat) : Option Bool :=
  if s.max_val_excluded ≤ elem then some false
  else
    match s.inner.sum_rangeC elem (elem + 1) with
    | none => none
    | some x => some (decide (x = 1))

def FenwickSet.insertC (s : FenwickSet) (elem : Nat) : Option (Bool × FenwickSet) :=
  match s.containsC elem with
  | none => none
  | some c =>
    if s.max_val_excluded ≤ elem ∨ c then some (false, s)
    else
      match s.inner.addC elem 1 with
      | none => none
      | some t => some (true, { s with inner := t, num_elements := s.num_elements + 1 })

def FenwickSet.removeC (s : FenwickSet) (elem : Nat) : Option (Bool × FenwickSet) :=
  match s.containsC elem with
  | none => none
  | some c =>
    if s.max_val_excluded ≤ elem ∨ ¬c ∨ s.num_elements = 0 then some (false, s)
    else
      match s.inner.addC elem (-1) with
      | none => none
      | some t => some (true, { s with inner := t, num_elements := s.num_elements - 1 })

def FenwickSet.nthC (s : FenwickSet) (n : Nat) : Option (Option Nat) :=
  (s.inner.lower_boundC (i32wrap (i32ofNat n + 1))).map
    fun res => if s.max_val_excluded ≤ res then none else some res

def FenwickSet.selectC (s : FenwickSet) (draw : Nat → Nat) : Option (Option Nat) :=
  if s.num_elements = 0 then some none
  else s.nthC (draw s.num_elements)

def iterFromCAux : Nat → FenwickTree → Nat → Int → Option (List Nat)
  | 0, _, _, _ => some []
  | fuel + 1, fwt, current, before =>
    if current < fwt.len then
      match fwt.sumC (current + 1) with
      | none => none
      | some sum =>
        if sum - before = 1 then
          match iterFromCAux fuel fwt (current + 1) sum with
          | none => none
          | some rest => some ((current + 1 - 1) :: rest)
        else iterFromCAux fuel fwt (current + 1) sum
    else some []

def FenwickSet.iterOutC (s : FenwickSet) : Option (List Nat) :=
  iterFromCAux s.inner.len s.inner 0 0

/-- Per-position delta sum observed through the public tree interface:
`sum_range(v..v+1)` (what `contains` compares against 1). -/
def FenwickSet.delta (s : FenwickSet) (v : Nat) : Int :=
  s.inner.sum_range v (v + 1)

/-- The contract for `lower_bound` exactly as the specification words it:
"returns the minimal count i, with 1 ≤ i ≤ domain_size, such that the prefix
sum over [0, i) is ≥ query, and returns 0 when query ≤ 0"  (the prefix sum
over `[0, i)` of the tree is its `sum i`). -/
def lowerBoundClaimed (t : FenwickTree) (query : Int) (r : Nat) : Prop :=
  if query ≤ 0 then r = 0
  else 1 ≤ r ∧ r ≤ t.len ∧ query ≤ t.sum r ∧ ∀ j, 1 ≤ j → j < r → t.sum j < query

theorem lowbitAux_eq_lowbitN : ∀ fuel n, n ≤ fuel → lowbitAux fuel n = lowbitN n := by
  intro fuel
  induction fuel using Nat.strong_induction_on with
  | _ fuel ih =>
    intro n hn
    match fuel, n with
    | 0, 0 => rfl
    | f + 1, 0 => rfl
    | f + 1, n + 1 =>
      show lowbitAux (f + 1) (n + 1) = lowbitAux (n + 1) (n + 1)
      rw [lowbitAux, lowbitAux]
      have hd2 : (n + 1) / 2 ≤ f := by omega
      have hd2' : (n + 1) / 2 ≤ n := by omega
      rw [ih f (by omega) _ hd2, ih n (by omega) _ hd2']

/-- Source-shaped unfolding of `lowbitN`. -/
theorem lowbitN_eq (n : Nat) :
    lowbitN n = if n = 0 then 0 else if n % 2 = 1 then 1 else 2 * lowbitN (n / 2) := by
  match n with
  | 0 => rfl
  | n + 1 =>
    show lowbitAux (n + 1) (n + 1) = _
    rw [lowbitAux, lowbitAux_eq_lowbitN n ((n + 1) / 2) (by omega)]

theorem lowbitN_pos {n : Nat} (h : 0 < n) : 0 < lowbitN n := by
  induction n using Nat.strong_induction_on with
  | _ n ih =>
    rw [lowbitN_eq]
    split
    · omega
    · split
      · omega
      · rename_i h0 h1
        have := ih (n / 2) (by omega) (by omega)
        omega

theorem lowbitN_le {n : Nat} (h : 0 < n) : lowbitN n ≤ n := by
  induction n using Nat.strong_induction_on with
  | _ n ih =>
    rw [lowbitN_eq]
    split
    · omega
    · split
      · omega
      · rename_i h0 h1
        have := ih (n / 2) (by omega) (by omega)
        omega

theorem addLoopAux_eq_addLoop :
    ∀ fuel inner len plus idx, 0 < idx → len + 1 - idx ≤ fuel →
      addLoopAux fuel inner len plus idx = addLoop inner len plus idx := by
  have key : ∀ fuel fuel' inner len plus idx, 0 < idx →
      len + 1 - idx ≤ fuel → len + 1 - idx ≤ fuel' →
      addLoopAux fuel inner len plus idx = addLoopAux fuel' inner len plus idx := by
    intro fuel
    induction fuel using Nat.strong_induction_on with
    | _ fuel ih =>
      intro fuel' inner len plus idx hpos hf hf'
      match fuel, fuel', hf, hf' with
      | f + 1, f' + 1, hf, hf' =>
        rw [addLoopAux, addLoopAux]
        split
        · rename_i hle
          have hlb := lowbitN_pos hpos
          exact ih f (by omega) f' _ _ _ _ (by omega) (by omega) (by omega)
        · rfl
      | 0, 0, hf, hf' => rfl
      | 0, f' + 1, hf, hf' =>
        rw [addLoopAux, addLoopAux]
        split
        · omega
        · rfl
      | f + 1, 0, hf, hf' =>
        rw [addLoopAux, addLoopAux]
        split
        · omega
        · rfl
  intro fuel inner len plus idx hpos hf
  exact key fuel (len + 1) inner len plus idx hpos hf (by omega)

/-- Source-shaped unfolding of `addLoop` (for positive indices, which is the
only way it is ever entered). -/
theorem addLoop_eq (inner : List Int) (len : Nat) (plus : Int) (idx : Nat) (hpos : 0 < idx) :
    addLoop inner len plus idx =
      if idx ≤ len then
        addLoop (inner.set idx (inner.getD idx 0 + plus)) len plus (idx + lowbitN idx)
      else inner := by
  show addLoopAux (len + 1) inner len plus idx = _
  rw [addLoopAux]
  split
  · rename_i hle
    have hlb := lowbitN_pos hpos
    exact addLoopAux_eq_addLoop len _ _ _ _ (by omega) (by omega)
  · rfl

theorem sumLoopAux_eq_sumLoop :
    ∀ fuel inner idx, idx ≤ fuel → sumLoopAux fuel inner idx = sumLoop inner idx := by
  have key : ∀ fuel fuel' inner idx, idx ≤ fuel → idx ≤ fuel' →
      sumLoopAux fuel inner idx = sumLoopAux fuel' inner idx := by
    intro fuel
    induction fuel using Nat.strong_induction_on with
    | _ fuel ih =>
      intro fuel' inner idx hf hf'
      match fuel, fuel' with
      | 0, 0 => rfl
      | 0, f' + 1 =>
        rw [sumLoopAux, sumLoopAux]
        split
        · omega
        · rfl
      | f + 1, 0 =>
        rw [sumLoopAux, sumLoopAux]
        split
        · omega
        · rfl
      | f + 1, f' + 1 =>
        rw [sumLoopAux, sumLoopAux]
        split
        · rename_i hpos
          have h1 := lowbitN_pos hpos
          have h2 := lowbitN_le hpos
          rw [ih f (by omega) f' inner (idx - lowbitN idx) (by omega) (by omega)]
        · rfl
  intro fuel inner idx hf
  exact key fuel idx inner idx hf (by omega)

/-- Source-shaped unfolding of `sumLoop`. -/
theorem sumLoop_eq (inner : List Int) (idx : Nat) :
    sumLoop inner idx =
      if 0 < idx then inner.getD idx 0 + sumLoop inner (idx - lowbitN idx) else 0 := by
  show sumLoopAux idx inner idx = _
  match idx with
  | 0 => rfl
  | i + 1 =>
    rw [sumLoopAux]
    have hpos : 0 < i + 1 := by omega
    have h1 := lowbitN_pos hpos
    have h2 := lowbitN_le hpos
    rw [if_pos hpos, if_pos hpos, sumLoopAux_eq_sumLoop i inner _ (by omega)]

theorem lbInitKAux_eq_lbInitK :
    ∀ fuel len k, 0 < k → len + 1 - k ≤ fuel → lbInitKAux fuel len k = lbInitK len k := by
  have key : ∀ fuel fuel' len k, 0 < k → len + 1 - k ≤ fuel → len + 1 - k ≤ fuel' →
      lbInitKAux fuel len k = lbInitKAux fuel' len k := by
    intro fuel
    induction fuel using Nat.strong_induction_on with
    | _ fuel ih =>
      intro fuel' len k hk hf hf'
      match fuel, fuel' with
      | 0, 0 => rfl
      | 0, f' + 1 =>
        rw [lbInitKAux, lbInitKAux]
        split
        · omega
        · rfl
      | f + 1, 0 =>
        rw [lbInitKAux, lbInitKAux]
        split
        · omega
        · rfl
      | f + 1, f' + 1 =>
        rw [lbInitKAux, lbInitKAux]
        split
        · rename_i hle
          exact ih f (by omega) f' len (2 * k) (by omega) (by omega) (by omega)
        · rfl
  intro fuel len k hk hf
  exact key fuel (len + 1) len k hk hf (by omega)

/-- Source-shaped unfolding of `lbInitK` (for positive `k`; the loop is
entered with `k = 1` and `k` only grows). -/
theorem lbInitK_eq (len k : Nat) (hk : 0 < k) :
    lbInitK len k = if k ≤ len then lbInitK len (2 * k) else k := by
  show lbInitKAux (len + 1) len k = _
  rw [lbInitKAux]
  split
  · rename_i hle
    exact lbInitKAux_eq_lbInitK len _ (2 * k) (by omega) (by omega)
  · rfl

theorem lbLoopAux_eq_lbLoop :
    ∀ fuel inner len k cur query, k ≤ fuel →
      lbLoopAux fuel inner len k cur query = lbLoop inner len k cur query := by
  have key : ∀ fuel fuel' inner len k cur query, k ≤ fuel → k ≤ fuel' →
      lbLoopAux fuel inner len k cur query = lbLoopAux fuel' inner len k cur query := by
    intro fuel
    induction fuel using Nat.strong_induction_on with
    | _ fuel ih =>
      intro fuel' inner len k cur query hf hf'
      match fuel, fuel' with
      | 0, 0 => rfl
      | 0, f' + 1 =>
        have hk : k = 0 := by omega
        rw [lbLoopAux, lbLoopAux, if_pos hk]
      | f + 1, 0 =>
        have hk : k = 0 := by omega
        rw [lbLoopAux, lbLoopAux, if_pos hk]
      | f + 1, f' + 1 =>
        rw [lbLoopAux, lbLoopAux]
        split
        · rfl
        · rename_i hk
          simp only
          split
          · exact ih f (by omega) f' _ _ _ _ _ (by omega) (by omega)
          · split
            · exact ih f (by omega) f' _ _ _ _ _ (by omega) (by omega)
            · exact ih f (by omega) f' _ _ _ _ _ (by omega) (by omega)
  intro fuel inner len k cur query hf
  exact key fuel k inner len k cur query hf (by omega)

/-- Source-shaped unfolding of `lbLoop`. -/
theorem lbLoop_eq (inner : List Int) (len : Nat) (k cur : Nat) (query : Int) :
    lbLoop inner len k cur query =
      if k = 0 then cur
      else
        let k2 := k / 2
        let nxt := cur + k2
        if nxt > len then lbLoop inner len k2 cur query
        else
          let val := inner.getD nxt 0
          if val < query then lbLoop inner len k2 (cur + k2) (query - val)
          else lbLoop inner len k2 cur query := by
  show lbLoopAux k inner len k cur query = _
  match k with
  | 0 => rfl
  | k + 1 =>
    rw [lbLoopAux]
    have hk : ¬(k + 1 = 0) := by omega
    rw [if_neg hk, if_neg hk]
    simp only
    split
    · exact lbLoopAux_eq_lbLoop k inner len ((k + 1) / 2) cur query (by omega)
    · split
      · exact lbLoopAux_eq_lbLoop k inner len ((k + 1) / 2) _ _ (by omega)
      · exact lbLoopAux_eq_lbLoop k inner len ((k + 1) / 2) cur query (by omega)

theorem fwsIterNextAux_eq_fws_iter_next :
    ∀ fuel fwt current before, fwt.len - current ≤ fuel →
      fwsIterNextAux fuel fwt current before = fws_iter_next fwt current before := by
  have key : ∀ fuel fuel' fwt current before, fwt.len - current ≤ fuel →
      fwt.len - current ≤ fuel' →
      fwsIterNextAux fuel fwt current before = fwsIterNextAux fuel' fwt current before := by
    intro fuel
    induction fuel using Nat.strong_induction_on with
    | _ fuel ih =>
      intro fuel' fwt current before hf hf'
      match fuel, fuel' with
      | 0, 0 => rfl
      | 0, f' + 1 =>
        rw [fwsIterNextAux, fwsIterNextAux]
        split
        · omega
        · rfl
      | f + 1, 0 =>
        rw [fwsIterNextAux, fwsIterNextAux]
        split
        · omega
        · rfl
      | f + 1, f' + 1 =>
        rw [fwsIterNextAux, fwsIterNextAux]
        split
        · rename_i hlt
          simp only
          split
          · rfl
          · exact ih f (by omega) f' fwt _ _ (by omega) (by omega)
        · rfl
  intro fuel fwt current before hf
  exact key fuel (fwt.len - current) fwt current before hf (by omega)

/-- Source-shaped unfolding of `fws_iter_next`. -/
theorem fws_iter_next_eq (fwt : FenwickTree) (current : Nat) (before : Int) :
    fws_iter_next fwt current before =
      if current < fwt.len then
        let c := current + 1
        let sum := fwt.sum c
        let diff := sum - before
        if diff = 1 then (some (c - 1), c, sum)
        else fws_iter_next fwt c sum
      else (none, current, before) := by
  show fwsIterNextAux (fwt.len - current) fwt current before = _
  match h : fwt.len - current with
  | 0 =>
    rw [fwsIterNextAux]
    split
    · omega
    · rfl
  | f + 1 =>
    rw [fwsIterNextAux]
    split
    · rename_i hlt
      simp only
      split
      · rfl
      · exact fwsIterNextAux_eq_fws_iter_next f fwt _ _ (by omega)
    · rfl

theorem iterFromAux_eq_iterFrom :
    ∀ fuel fwt current before, fwt.len - current ≤ fuel →
      iterFromAux fuel fwt current before = iterFrom fwt current before := by
  have key : ∀ fuel fuel' fwt current before, fwt.len - current ≤ fuel →
      fwt.len - current ≤ fuel' →
      iterFromAux fuel fwt current before = iterFromAux fuel' fwt current before := by
    intro fuel
    induction fuel using Nat.strong_induction_on with
    | _ fuel ih =>
      intro fuel' fwt current before hf hf'
      match fuel, fuel' with
      | 0, 0 => rfl
      | 0, f' + 1 =>
        rw [iterFromAux, iterFromAux]
        split
        · omega
        · rfl
      | f + 1, 0 =>
        rw [iterFromAux, iterFromAux]
        split
        · omega
        · rfl
      | f + 1, f' + 1 =>
        rw [iterFromAux, iterFromAux]
        split
        · rename_i hlt
          simp only
          split
          · rw [ih f (by omega) f' fwt _ _ (by omega) (by omega)]
          · exact ih f (by omega) f' fwt _ _ (by omega) (by omega)
        · rfl
  intro fuel fwt current before hf
  exact key fuel (fwt.len - current) fwt current before hf (by omega)

/-- Source-shaped unfolding of `iterFrom`. -/
theorem iterFrom_eq (fwt : FenwickTree) (current : Nat) (before : Int) :
    iterFrom fwt current before =
      if current < fwt.len then
        let c := current + 1
        let sum := fwt.sum c
        let diff := sum - before
        if diff = 1 then (c - 1) :: iterFrom fwt c sum
        else iterFrom fwt c sum
      else [] := by
  show iterFromAux (fwt.len - current) fwt current before = _
  match h : fwt.len - current with
  | 0 =>
    rw [iterFromAux]
    split
    · omega
    · rfl
  | f + 1 =>
    rw [iterFromAux]
    split
    · rename_i hlt
      simp only
      split
      · rw [iterFromAux_eq_iterFrom f fwt _ _ (by omega)]
      · exact iterFromAux_eq_iterFrom f fwt _ _ (by omega)
    · rfl

/-- The collected stream is the unfolding of repeated `fws_iter_next` calls:
what the borrowing iterator `FwsIter` and the owning iterator `FwsIntoIter`
both produce. -/
theorem iterFrom_eq_next (fwt : FenwickTree) (current : Nat) (before : Int) :
    iterFrom fwt current before =
      match fws_iter_next fwt current before with
      | (none, _, _) => []
      | (some v, c, b) => v :: iterFrom fwt c b := by
  have : ∀ fuel current before, fwt.len - current ≤ fuel →
      iterFrom fwt current before =
        match fws_iter_next fwt current before with
        | (none, _, _) => []
        | (some v, c, b) => v :: iterFrom fwt c b := by
    intro fuel
    induction fuel using Nat.strong_induction_on with
    | _ fuel ih =>
      intro current before hf
      rw [iterFrom_eq, fws_iter_next_eq]
      split
      · rename_i hlt
        simp only
        split
        · rfl
        · exact ih (fwt.len - (current + 1)) (by omega) (current + 1) _ (by omega)
      · rfl
  exact this (fwt.len - current) current before (by omega)

/-! ### Arithmetic facts about `lowbitN` -/

theorem lowbitN_odd {n : Nat} (h : n % 2 = 1) : lowbitN n = 1 := by
  rw [lowbitN_eq]
  have : ¬n = 0 := by omega
  simp [this, h]

theorem lowbitN_even {n : Nat} (h0 : 0 < n) (h : n % 2 = 0) :
    lowbitN n = 2 * lowbitN (n / 2) := by
  rw [lowbitN_eq]
  have h1 : ¬n = 0 := by omega
  have h2 : ¬n % 2 = 1 := by omega
  simp [h1, h2]

/-- Every positive number is an odd multiple of its lowest set bit, which is a
power of two. -/
theorem lowbitN_spec {n : Nat} (h : 0 < n) :
    ∃ b c, n = 2 ^ b * (2 * c + 1) ∧ lowbitN n = 2 ^ b := by
  induction n using Nat.strong_induction_on with
  | _ n ih =>
    rcases Nat.even_or_odd n with he | ho
    · have h2 : n % 2 = 0 := Nat.even_iff.mp he
      have hp : 0 < n / 2 := by omega
      obtain ⟨b, c, hbc, hlb⟩ := ih (n / 2) (by omega) hp
      refine ⟨b + 1, c, ?_, ?_⟩
      · have : n = 2 * (n / 2) := by omega
        rw [this, hbc]; ring
      · rw [lowbitN_even h h2, hlb]; ring
    · have h2 : n % 2 = 1 := Nat.odd_iff.mp ho
      exact ⟨0, n / 2, by omega, by rw [lowbitN_odd h2]; ring⟩

/-- Conversely, the lowest set bit of an odd multiple of `2 ^ b` is `2 ^ b`. -/
theorem lowbitN_odd_mul (b c : Nat) : lowbitN (2 ^ b * (2 * c + 1)) = 2 ^ b := by
  induction b with
  | zero =>
    have : 2 ^ 0 * (2 * c + 1) = 2 * c + 1 := by ring
    rw [this, lowbitN_odd (by omega)]
    norm_num
  | succ b ih =>
    have hv : 2 ^ (b + 1) * (2 * c + 1) = 2 * (2 ^ b * (2 * c + 1)) := by ring
    have hpos : 0 < 2 ^ (b + 1) * (2 * c + 1) := by positivity
    have hmod : 2 ^ (b + 1) * (2 * c + 1) % 2 = 0 := by omega
    rw [lowbitN_even hpos hmod]
    have hdiv : 2 ^ (b + 1) * (2 * c + 1) / 2 = 2 ^ b * (2 * c + 1) := by omega
    rw [hdiv, ih]
    ring

/-- A power of two dividing an odd multiple of `2 ^ b` divides `2 ^ b`. -/
theorem two_pow_dvd_odd_mul {t b c : Nat} (h : 2 ^ t ∣ 2 ^ b * (2 * c + 1)) : t ≤ b := by
  induction t generalizing b with
  | zero => omega
  | succ t ih =>
    match b with
    | 0 =>
      exfalso
      have h2 : 2 ∣ 2 ^ (t + 1) := ⟨2 ^ t, by ring⟩
      have : 2 ∣ 2 ^ 0 * (2 * c + 1) := dvd_trans h2 h
      omega
    | b + 1 =>
      have h2 : 2 ^ t ∣ 2 ^ b * (2 * c + 1) := by
        obtain ⟨w, hw⟩ := h
        refine ⟨w, ?_⟩
        have : 2 * (2 ^ b * (2 * c + 1)) = 2 * (2 ^ t * w) := by
          calc 2 * (2 ^ b * (2 * c + 1)) = 2 ^ (b + 1) * (2 * c + 1) := by ring
          _ = 2 ^ (t + 1) * w := hw
          _ = 2 * (2 ^ t * w) := by ring
        omega
      have := ih h2
      omega

theorem two_pow_dvd_lowbitN {t n : Nat} (hn : 0 < n) (h : 2 ^ t ∣ n) : 2 ^ t ∣ lowbitN n := by
  obtain ⟨b, c, hbc, hlb⟩ := lowbitN_spec hn
  rw [hlb]
  exact pow_dvd_pow 2 (two_pow_dvd_odd_mul (hbc ▸ h))

theorem lowbitN_dvd {n : Nat} : lowbitN n ∣ n := by
  rcases Nat.eq_zero_or_pos n with h | h
  · subst h
    rw [show lowbitN 0 = 0 from rfl]
  · obtain ⟨b, c, hbc, hlb⟩ := lowbitN_spec h
    rw [hlb, hbc]
    exact ⟨2 * c + 1, rfl⟩

/-- No multiple of `2 * C` lies in `[2 * C * s + C, 2 * C * s + 2 * C)`. -/
theorem no_even_multiple_in_gap {C s z x p : Nat} (hC : 0 < C) (hp : p = 2 * C * s + C)
    (hx : x = 2 * C * z) (h1 : p ≤ x) (h2 : x < p + C) : False := by
  subst hp hx
  have e1 : 2 * C * s + C = C * (2 * s + 1) := by ring
  have e2 : 2 * C * z = C * (2 * z) := by ring
  have e3 : (2 * C * s + C) + C = C * (2 * s + 2) := by ring
  rw [e1, e2] at h1
  rw [e2, e3] at h2
  have g1 : 2 * s + 1 ≤ 2 * z := Nat.le_of_mul_le_mul_left h1 hC
  have g2 : 2 * z < 2 * s + 2 := Nat.lt_of_mul_lt_mul_left h2
  omega

/-- Geometric gap lemma: a node strictly between `p` and `p + lowbit p` has a
covering interval that does not reach below `p`. -/
theorem lowbitN_gap {p i : Nat} (hp : 0 < p) (h1 : p < i) (h2 : i < p + lowbitN p) :
    p ≤ i - lowbitN i := by
  obtain ⟨c, s, hcs, hlp⟩ := lowbitN_spec hp
  obtain ⟨b, m, hbm, hlb⟩ := lowbitN_spec (show 0 < i by omega)
  rw [hlp] at h2
  rw [hlb]
  by_contra hcon
  push_neg at hcon
  have hd : i - 2 ^ b < p := hcon
  rcases le_or_lt b c with hbc | hbc
  · -- 2^b divides both i and p, hence their difference d = i - p < 2^b is 0
    have hdvd_i : 2 ^ b ∣ i := by rw [hbm]; exact Dvd.intro _ rfl
    have hdvd_p : 2 ^ b ∣ p := by
      rw [hcs]
      exact dvd_mul_of_dvd_left (pow_dvd_pow 2 hbc) _
    have hdvd_d : 2 ^ b ∣ i - p := Nat.dvd_sub' hdvd_i hdvd_p
    have hlt : i - p < 2 ^ b := by omega
    have hpos : 0 < i - p := by omega
    have := Nat.le_of_dvd hpos hdvd_d
    omega
  · -- 2^(c+1) divides i, placing i in the forbidden dyadic gap around p
    have hdvd_i : 2 ^ (c + 1) ∣ i := by
      rw [hbm]
      exact dvd_mul_of_dvd_left (pow_dvd_pow 2 (by omega)) _
    obtain ⟨z, hz⟩ := hdvd_i
    have hi2 : i < p + 2 ^ c := by
      have hlbpos : 0 < 2 ^ b := Nat.pos_pow_of_pos b (by omega)
      omega
    exact no_even_multiple_in_gap (C := 2 ^ c) (s := s) (z := z)
      (Nat.pos_pow_of_pos c (by omega))
      (by rw [hcs]; ring) (by rw [hz, pow_succ]; ring) (by omega) hi2

/-- Geometric step lemma: a node at or above `p + lowbit p` whose covering
interval reaches below `p + lowbit p` in fact reaches below `p`. -/
theorem lowbitN_cover_step {p i : Nat} (hp : 0 < p) (h1 : p + lowbitN p ≤ i)
    (h2 : i - lowbitN i < p + lowbitN p) : i - lowbitN i < p := by
  obtain ⟨c, s, hcs, hlp⟩ := lowbitN_spec hp
  have hlppos : 0 < lowbitN p := lowbitN_pos hp
  obtain ⟨b, m, hbm, hlb⟩ := lowbitN_spec (show 0 < i by omega)
  rw [hlp] at h1 h2
  rw [hlb] at h2 ⊢
  by_contra hcon
  push_neg at hcon
  have hbpos : 0 < 2 ^ b := Nat.pos_pow_of_pos b (by omega)
  have hdvd_i : 2 ^ b ∣ i := by rw [hbm]; exact Dvd.intro _ rfl
  rcases le_or_lt b c with hbc | hbc
  · -- difference i - (p + 2^c) is a multiple of 2^b smaller than 2^b, so zero
    have hdvd_p : 2 ^ b ∣ p := by
      rw [hcs]; exact dvd_mul_of_dvd_left (pow_dvd_pow 2 hbc) _
    have hdvd_c : 2 ^ b ∣ 2 ^ c := pow_dvd_pow 2 hbc
    have hdvd_d : 2 ^ b ∣ i - (p + 2 ^ c) := Nat.dvd_sub' hdvd_i (Dvd.dvd.add hdvd_p hdvd_c)
    have hlt : i - (p + 2 ^ c) < 2 ^ b := by omega
    have heq : i = p + 2 ^ c := by
      rcases Nat.eq_zero_or_pos (i - (p + 2 ^ c)) with h0 | hpos
      · omega
      · have := Nat.le_of_dvd hpos hdvd_d
        omega
    have hdvd2 : 2 ^ (c + 1) ∣ i := by
      refine ⟨s + 1, ?_⟩
      rw [heq, hcs, pow_succ]; ring
    rw [hbm] at hdvd2
    have := two_pow_dvd_odd_mul hdvd2
    omega
  · -- i - 2^b is a multiple of 2^(c+1) in the forbidden gap around p
    have hdvd_x : 2 ^ (c + 1) ∣ i - 2 ^ b :=
      Nat.dvd_sub' (dvd_trans (pow_dvd_pow 2 (by omega)) hdvd_i)
        (pow_dvd_pow 2 (by omega))
    obtain ⟨z, hz⟩ := hdvd_x
    exact no_even_multiple_in_gap (C := 2 ^ c) (s := s) (z := z)
      (Nat.pos_pow_of_pos c (by omega))
      (by rw [hcs]; ring) (by rw [hz, pow_succ]; ring) (by omega) h2

/-! ### List access helper lemmas -/

theorem getD_set_self {l : List Int} {i : Nat} {v : Int} (h : i < l.length) :
    (l.set i v).getD i 0 = v := by
  simp [List.getD_eq_getElem?_getD, List.getElem?_set, h]

theorem getD_set_ne {l : List Int} {i j : Nat} {v : Int} (h : i ≠ j) :
    (l.set i v).getD j 0 = l.getD j 0 := by
  simp [List.getD_eq_getElem?_getD, List.getElem?_set, h]

theorem psum_zero (a : Nat → Int) : psum a 0 = 0 := by simp [psum]

theorem psum_succ (a : Nat → Int) (n : Nat) : psum a (n + 1) = psum a n + a n := by
  simp [psum, Finset.sum_range_succ]

theorem psum_mono {a : Nat → Int} (ha : ∀ j, 0 ≤ a j) {m n : Nat} (h : m ≤ n) :
    psum a m ≤ psum a n := by
  induction n with
  | zero =>
    have : m = 0 := by omega
    simp [this]
  | succ n ih =>
    rcases Nat.lt_or_ge m (n + 1) with hlt | hge
    · have := ih (by omega)
      rw [psum_succ]
      have := ha n
      omega
    · have : m = n + 1 := by omega
      simp [this]

/-- Update of the abstract array shifts prefix sums past the updated index. -/
theorem psum_update (a : Nat → Int) (idx : Nat) (v : Int) (n : Nat) :
    psum (Function.update a idx v) n =
      psum a n + (if idx < n then v - a idx else 0) := by
  induction n with
  | zero => simp [psum_zero]
  | succ n ih =>
    rw [psum_succ, psum_succ, ih]
    rcases Nat.lt_trichotomy idx n with h | h | h
    · rw [if_pos h, if_pos (by omega), Function.update_noteq (by omega)]
      ring
    · subst h
      rw [if_neg (by omega), if_pos (by omega), Function.update_same]
      ring
    · rw [if_neg (by omega), if_neg (by omega), Function.update_noteq (by omega)]
      ring

/-! ### Correctness of the tree operations relative to the abstract array -/

theorem addLoop_length (len : Nat) (plus : Int) :
    ∀ d p inner, len + 1 - p ≤ d → 0 < p →
      (addLoop inner len plus p).length = List.length inner := by
  intro d
  induction d with
  | zero =>
    intro p inner hd hp
    rw [addLoop_eq _ _ _ _ hp, if_neg (by omega)]
  | succ d ih =>
    intro p inner hd hp
    rw [addLoop_eq _ _ _ _ hp]
    split
    · rename_i hle
      have hlb := lowbitN_pos hp
      rw [ih (p + lowbitN p) _ (by omega) (by omega)]
      simp
    · rfl

/-- The `add` loop entered at index `p ≥ 1` adds `plus` exactly at the nodes
`i ≤ len` whose covering interval `[i - lowbit i, i)` contains `p - 1`,
i.e. `p ≤ i` and `i - lowbit i < p`. -/
theorem addLoop_getD (len : Nat) (plus : Int) :
    ∀ d p inner, len + 1 - p ≤ d → 0 < p → List.length inner = len + 1 → ∀ i,
      (addLoop inner len plus p).getD i 0 =
        inner.getD i 0 + (if p ≤ i ∧ i ≤ len ∧ i - lowbitN i < p then plus else 0) := by
  intro d
  induction d with
  | zero =>
    intro p inner hd hp hlen i
    rw [addLoop_eq _ _ _ _ hp, if_neg (by omega), if_neg (by omega)]
    ring
  | succ d ih =>
    intro p inner hd hp hlen i
    rw [addLoop_eq _ _ _ _ hp]
    by_cases hle : p ≤ len
    · rw [if_pos hle]
      have hlb := lowbitN_pos hp
      rw [ih (p + lowbitN p) _ (by omega) (by omega) (by simp [hlen]) i]
      by_cases hip : i = p
      · subst hip
        rw [getD_set_self (by omega)]
        rw [if_neg (by omega), if_pos ⟨Nat.le_refl i, hle, by omega⟩]
        ring
      · rw [getD_set_ne (fun h => hip h.symm)]
        have hiff : (p + lowbitN p ≤ i ∧ i ≤ len ∧ i - lowbitN i < p + lowbitN p) ↔
            (p ≤ i ∧ i ≤ len ∧ i - lowbitN i < p) := by
          constructor
          · rintro ⟨ha, hb, hc⟩
            exact ⟨by omega, hb, lowbitN_cover_step hp ha hc⟩
          · rintro ⟨ha, hb, hc⟩
            have hpi : p < i := by omega
            have hstep : p + lowbitN p ≤ i := by
              by_contra hcon
              push_neg at hcon
              have := lowbitN_gap hp hpi hcon
              omega
            exact ⟨hstep, hb, by omega⟩
        rw [if_congr hiff rfl rfl]
    · rw [if_neg hle, if_neg (by omega)]
      ring

theorem wf_new (n : Nat) : Wf (FenwickTree.new n) (fun _ => 0) := by
  constructor
  · simp [FenwickTree.new]
  · intro i h1 hi
    have : (List.replicate (n + 1) (0 : Int)).getD i 0 = 0 := by
      simp only [List.getD_eq_getElem?_getD, List.getElem?_replicate]
      split <;> rfl
    rw [show (FenwickTree.new n).inner = List.replicate (n + 1) 0 from rfl, this]
    simp [psum]

theorem wf_add {t : FenwickTree} {a : Nat → Int} (hw : Wf t a) {idx : Nat}
    (hidx : idx < t.len) (plus : Int) :
    Wf (t.add idx plus) (Function.update a idx (a idx + plus)) := by
  obtain ⟨hlen, hnode⟩ := hw
  constructor
  · show (addLoop t.inner t.len plus (idx + 1)).length = t.len + 1
    rw [addLoop_length t.len plus (t.len + 1) (idx + 1) t.inner (by omega) (by omega), hlen]
  · intro i h1 hi
    show (addLoop t.inner t.len plus (idx + 1)).getD i 0 = _
    rw [addLoop_getD t.len plus (t.len + 1) (idx + 1) t.inner (by omega) (by omega) hlen i]
    have hi' : i ≤ t.len := hi
    rw [hnode i h1 hi']
    rw [psum_update, psum_update]
    have hBpos := lowbitN_pos (show 0 < i by omega)
    have hBle := lowbitN_le (show 0 < i by omega)
    by_cases hc : idx + 1 ≤ i ∧ i ≤ t.len ∧ i - lowbitN i < idx + 1
    · rw [if_pos hc, if_pos (by omega), if_neg (by omega)]
      ring
    · rw [if_neg hc]
      by_cases h2 : idx < i
      · have h3 : idx + 1 ≤ i - lowbitN i := by omega
        rw [if_pos (by omega), if_pos (by omega)]
        ring
      · rw [if_neg (by omega), if_neg (by omega)]
        ring

/-- `sum` under well-formedness computes the abstract prefix sum. -/
theorem sum_eq {t : FenwickTree} {a : Nat → Int} (hw : Wf t a) :
    ∀ m, m ≤ t.len → t.sum m = psum a m := by
  intro m
  induction m using Nat.strong_induction_on with
  | _ m ih =>
    intro hm
    show sumLoop t.inner m = _
    rw [sumLoop_eq]
    split
    · rename_i hpos
      have hBpos := lowbitN_pos hpos
      have hBle := lowbitN_le hpos
      rw [hw.2 m (by omega) hm]
      have : sumLoop t.inner (m - lowbitN m) = psum a (m - lowbitN m) :=
        ih (m - lowbitN m) (by omega) (by omega)
      rw [this]
      ring
    · rename_i hz
      have : m = 0 := by omega
      rw [this, psum_zero]

/-- Let-free restatement of the `lbLoop` unfolding. -/
theorem lbLoop_eq2 (inner : List Int) (len : Nat) (k cur : Nat) (query : Int) :
    lbLoop inner len k cur query =
      if k = 0 then cur
      else if cur + k / 2 > len then lbLoop inner len (k / 2) cur query
      else if inner.getD (cur + k / 2) 0 < query then
        lbLoop inner len (k / 2) (cur + k / 2) (query - inner.getD (cur + k / 2) 0)
      else lbLoop inner len (k / 2) cur query := by
  rw [lbLoop_eq]

/-- The first loop of `lower_bound` turns any power of two into a power of two
exceeding `len`. -/
theorem lbInitK_pow (len : Nat) :
    ∀ d k, len + 1 - k ≤ d → 0 < k → (∃ m, k = 2 ^ m) →
      ∃ M, lbInitK len k = 2 ^ M ∧ len < 2 ^ M := by
  intro d
  induction d with
  | zero =>
    intro k hd hk hpow
    obtain ⟨m, rfl⟩ := hpow
    rw [lbInitK_eq _ _ hk, if_neg (by omega)]
    exact ⟨m, rfl, by omega⟩
  | succ d ih =>
    intro k hd hk hpow
    obtain ⟨m, rfl⟩ := hpow
    rw [lbInitK_eq _ _ hk]
    by_cases hle : 2 ^ m ≤ len
    · rw [if_pos hle]
      have : (2 : Nat) * 2 ^ m = 2 ^ (m + 1) := by rw [pow_succ]; ring
      rw [this]
      exact ih (2 ^ (m + 1)) (by rw [pow_succ]; omega) (by positivity) ⟨m + 1, rfl⟩
    · rw [if_neg hle]
      exact ⟨m, rfl, by omega⟩

/-- Main invariant of the binary-lifting loop of `lower_bound`: entered at a
`2 ^ m`-aligned index `cur ≤ len` with positive remaining `q` such that the
window `cur + 2 ^ m` either leaves the domain or already reaches the target,
the loop lands on the greatest reachable index whose prefix sum is below the
target. -/
theorem lbLoop_correct {t : FenwickTree} {a : Nat → Int} (hw : Wf t a) :
    ∀ m cur (q : Int), 2 ^ m ∣ cur → cur ≤ t.len → 0 < q →
      (t.len < cur + 2 ^ m ∨ psum a cur + q ≤ psum a (cur + 2 ^ m)) →
      cur ≤ lbLoop t.inner t.len (2 ^ m) cur q ∧
      lbLoop t.inner t.len (2 ^ m) cur q ≤ t.len ∧
      psum a (lbLoop t.inner t.len (2 ^ m) cur q) < psum a cur + q ∧
      (lbLoop t.inner t.len (2 ^ m) cur q = t.len ∨
        psum a cur + q ≤ psum a (lbLoop t.inner t.len (2 ^ m) cur q + 1)) := by
  intro m
  induction m with
  | zero =>
    intro cur q hdvd hcur hq hwin
    have h1 : (2 : Nat) ^ 0 = 1 := rfl
    rw [h1] at hwin ⊢
    rw [lbLoop_eq2, if_neg (by omega)]
    have h2 : (1 : Nat) / 2 = 0 := rfl
    rw [h2]
    have h3 : ¬(cur + 0 > t.len) := by omega
    rw [if_neg h3]
    simp only [Nat.add_zero]
    have hfin : ∀ q' : Int, lbLoop t.inner t.len 0 cur q' = cur := by
      intro q'
      rw [lbLoop_eq2, if_pos rfl]
    have hlast : cur = t.len ∨ psum a cur + q ≤ psum a (cur + 1) := by
      rcases hwin with hL | hR
      · left; omega
      · right
        have : cur + 0 + 1 = cur + 1 := by omega
        omega
    split
    · rw [hfin]
      refine ⟨by omega, by omega, by omega, ?_⟩
      have : cur + 0 = cur := by omega
      exact hlast
    · rw [hfin]
      refine ⟨by omega, by omega, by omega, hlast⟩
  | succ m ih =>
    intro cur q hdvd hcur hq hwin
    have hk0 : (2 : Nat) ^ (m + 1) ≠ 0 := (Nat.pos_pow_of_pos (m + 1) (by omega)).ne'
    have hk2 : (2 : Nat) ^ (m + 1) / 2 = 2 ^ m := by
      rw [pow_succ]
      omega
    rw [lbLoop_eq2, if_neg hk0, hk2]
    have hdvd' : 2 ^ m ∣ cur := dvd_trans (pow_dvd_pow 2 (by omega)) hdvd
    by_cases hnxt : cur + 2 ^ m > t.len
    · rw [if_pos hnxt]
      exact ih cur q hdvd' hcur hq (Or.inl hnxt)
    · rw [if_neg hnxt]
      push_neg at hnxt
      -- the probed node is 2^m-aligned with odd quotient, so it covers exactly
      -- the window (cur, cur + 2^m]
      obtain ⟨w, hweq⟩ := hdvd
      have hlbnxt : lowbitN (cur + 2 ^ m) = 2 ^ m := by
        have : cur + 2 ^ m = 2 ^ m * (2 * w + 1) := by
          rw [hweq, pow_succ]; ring
        rw [this, lowbitN_odd_mul]
      have hge1 : 1 ≤ cur + 2 ^ m := by
        have := Nat.pos_pow_of_pos m (show 0 < 2 by omega)
        omega
      have hval : t.inner.getD (cur + 2 ^ m) 0 = psum a (cur + 2 ^ m) - psum a cur := by
        have hnode := hw.2 (cur + 2 ^ m) hge1 hnxt
        rw [hlbnxt] at hnode
        have hsub : cur + 2 ^ m - 2 ^ m = cur := by omega
        rw [hsub] at hnode
        exact hnode
      rw [hval]
      have hsplit : cur + 2 ^ (m + 1) = (cur + 2 ^ m) + 2 ^ m := by
        rw [pow_succ]; ring
      by_cases hlt : psum a (cur + 2 ^ m) - psum a cur < q
      · rw [if_pos hlt]
        have hrec := ih (cur + 2 ^ m) (q - (psum a (cur + 2 ^ m) - psum a cur))
          (Dvd.dvd.add hdvd' dvd_rfl) hnxt (by omega)
          (by
            rcases hwin with hL | hR
            · left; omega
            · right
              rw [← hsplit]
              omega)
        obtain ⟨c1, c2, c3, c4⟩ := hrec
        refine ⟨by omega, c2, by omega, ?_⟩
        rcases c4 with c4 | c4
        · exact Or.inl c4
        · right; omega
      · rw [if_neg hlt]
        push_neg at hlt
        exact ih cur q hdvd' hcur hq (Or.inr (by omega))

theorem lower_bound_of_nonpos (t : FenwickTree) {q : Int} (hq : q ≤ 0) :
    t.lower_bound q = 0 := by
  rw [FenwickTree.lower_bound, if_pos hq]

/-- `lower_bound` on a well-formed tree: the result `r` satisfies
`psum r < q` and is maximal with that property (`r = len`, or the prefix sum
at `r + 1` already reaches `q`). -/
theorem lower_bound_spec {t : FenwickTree} {a : Nat → Int} (hw : Wf t a)
    {q : Int} (hq : 0 < q) :
    t.lower_bound q ≤ t.len ∧ psum a (t.lower_bound q) < q ∧
      (t.lower_bound q = t.len ∨ q ≤ psum a (t.lower_bound q + 1)) := by
  obtain ⟨M, hM, hMgt⟩ := lbInitK_pow t.len (t.len + 1) 1 (by omega) (by omega) ⟨0, rfl⟩
  have hrw : t.lower_bound q = lbLoop t.inner t.len (lbInitK t.len 1) 0 q := by
    rw [FenwickTree.lower_bound, if_neg (by omega)]
  rw [hrw, hM]
  have hmain := lbLoop_correct hw M 0 q (dvd_zero _) (by omega) hq (Or.inl (by omega))
  rw [psum_zero] at hmain
  obtain ⟨c1, c2, c3, c4⟩ := hmain
  refine ⟨c2, by omega, ?_⟩
  rcases c4 with c4 | c4
  · exact Or.inl c4
  · right; omega

/-- With non-negative per-position values, `lower_bound` of a positive query
returns the greatest index (up to `len`) whose prefix sum is still below the
query. -/
theorem lower_bound_isGreatest {t : FenwickTree} {a : Nat → Int} (hw : Wf t a)
    (ha : ∀ j, 0 ≤ a j) {q : Int} (hq : 0 < q) :
    IsGreatest {j | j ≤ t.len ∧ psum a j < q} (t.lower_bound q) := by
  obtain ⟨c1, c2, c3⟩ := lower_bound_spec hw hq
  constructor
  · exact ⟨c1, c2⟩
  · rintro j ⟨hj1, hj2⟩
    by_contra hcon
    push_neg at hcon
    rcases c3 with h | h
    · omega
    · have : t.lower_bound q + 1 ≤ j := by omega
      have := psum_mono ha this
      omega

/-- For a 0/1 array, the prefix sum counts the ones. -/
theorem psum_count {a : Nat → Int} (h01 : ∀ v, a v = 0 ∨ a v = 1) (n : Nat) :
    psum a n = ((Finset.range n).filter (fun v => a v = 1)).card := by
  induction n with
  | zero => simp [psum_zero]
  | succ n ih =>
    rw [psum_succ, ih, Finset.range_succ, Finset.filter_insert]
    rcases h01 n with h | h
    · rw [if_neg (by omega), h]
      ring
    · rw [if_pos (by rw [h]), h,
        Finset.card_insert_of_not_mem (by simp)]
      push_cast
      ring

/-- `sum_range v (v+1)` on a well-formed tree reads off the abstract value. -/
theorem sum_range_single {t : FenwickTree} {a : Nat → Int} (hw : Wf t a)
    {v : Nat} (hv : v < t.len) : t.sum_range v (v + 1) = a v := by
  rw [FenwickTree.sum_range]
  show (if v = 0 then t.sum (v + 1) else t.sum (v + 1) - t.sum v) = a v
  have hs1 : t.sum (v + 1) = psum a (v + 1) := sum_eq hw (v + 1) (by omega)
  by_cases h0 : v = 0
  · rw [if_pos h0, hs1, h0, psum_succ, psum_zero]
    ring
  · rw [if_neg h0, hs1, sum_eq hw v (by omega), psum_succ]
    ring

/-- `contains` under the invariant is the 0/1 indicator. -/
theorem contains_iff {s : FenwickSet} {a : Nat → Int} (hinv : SetInv s a) (v : Nat) :
    s.contains v = true ↔ (v < s.max_val_excluded ∧ a v = 1) := by
  obtain ⟨hcap, hw, hlen, h01, hout, hcard⟩ := hinv
  rw [FenwickSet.contains]
  by_cases hv : s.max_val_excluded ≤ v
  · rw [if_pos hv]
    simp
    omega
  · rw [if_neg hv]
    push_neg at hv
    rw [sum_range_single hw (by omega)]
    simp
    omega

theorem filter_update_one {a : Nat → Int} {v n : Nat} (hv : v < n) :
    (Finset.range n).filter (fun x => Function.update a v 1 x = 1) =
      insert v ((Finset.range n).filter (fun x => a x = 1)) := by
  ext x
  simp only [Finset.mem_filter, Finset.mem_insert, Finset.mem_range, Function.update_apply]
  by_cases hx : x = v
  · subst hx
    simp [hv]
  · simp [hx]

theorem filter_update_zero {a : Nat → Int} {v n : Nat} :
    (Finset.range n).filter (fun x => Function.update a v 0 x = 1) =
      ((Finset.range n).filter (fun x => a x = 1)).erase v := by
  ext x
  simp only [Finset.mem_filter, Finset.mem_erase, Finset.mem_range, Function.update_apply]
  by_cases hx : x = v
  · subst hx
    simp
  · simp [hx]

/-- A refused `insert` (out of domain, or already present) returns `false`
and leaves the state untouched. -/
theorem insert_fail {s : FenwickSet} {a : Nat → Int} (hinv : SetInv s a) {v : Nat}
    (h : s.max_val_excluded ≤ v ∨ a v = 1) : s.insert v = (false, s) := by
  rw [FenwickSet.insert, if_pos]
  rcases h with h | h
  · exact Or.inl h
  · by_cases hv : s.max_val_excluded ≤ v
    · exact Or.inl hv
    · exact Or.inr ((contains_iff hinv v).mpr ⟨by omega, h⟩)

/-- A successful `insert` of a fresh in-domain value: returns `true`, adds
one occurrence at `v`, and bumps the cached cardinality. -/
theorem insert_ok {s : FenwickSet} {a : Nat → Int} (hinv : SetInv s a) {v : Nat}
    (hv : v < s.max_val_excluded) (hav : a v = 0) :
    (s.insert v).1 = true ∧
    SetInv (s.insert v).2 (Function.update a v 1) ∧
    (s.insert v).2.num_elements = s.num_elements + 1 ∧
    (s.insert v).2.max_val_excluded = s.max_val_excluded := by
  obtain ⟨hcap, hw, hlen, h01, hout, hcard⟩ := hinv
  have hnotc : ¬(s.max_val_excluded ≤ v ∨ s.contains v = true) := by
    rintro (h | h)
    · omega
    · have := (contains_iff ⟨hcap, hw, hlen, h01, hout, hcard⟩ v).mp h
      omega
  have hins : s.insert v =
      (true, { s with inner := s.inner.add v 1, num_elements := s.num_elements + 1 }) := by
    rw [FenwickSet.insert, if_neg]
    simpa using hnotc
  rw [hins]
  refine ⟨rfl, ⟨hcap, ?_, hlen, ?_, ?_, ?_⟩, rfl, rfl⟩
  · have := wf_add hw (show v < s.inner.len by omega) 1
    have heq : Function.update a v (a v + 1) = Function.update a v 1 := by
      rw [hav]
      norm_num
    rwa [heq] at this
  · intro x
    rw [Function.update_apply]
    split
    · omega
    · exact h01 x
  · intro x hx
    have hx' : s.max_val_excluded ≤ x := hx
    rw [Function.update_apply, if_neg (by omega)]
    exact hout x hx'
  · show s.num_elements + 1 = _
    rw [filter_update_one hv,
      Finset.card_insert_of_not_mem (by simp [hav]), hcard]

/-- A refused `remove` (out of domain, or absent) returns `false` and leaves
the state untouched. -/
theorem remove_fail {s : FenwickSet} {a : Nat → Int} (hinv : SetInv s a) {v : Nat}
    (h : s.max_val_excluded ≤ v ∨ a v = 0) : s.remove v = (false, s) := by
  rw [FenwickSet.remove, if_pos]
  by_cases hv : s.max_val_excluded ≤ v
  · exact Or.inl hv
  · refine Or.inr (Or.inl ?_)
    rcases h with h | h
    · omega
    · intro hc
      have := (contains_iff hinv v).mp hc
      omega

/-- A successful `remove` of a present value: returns `true`, clears the
occurrence at `v`, and decrements the cached cardinality. -/
theorem remove_ok {s : FenwickSet} {a : Nat → Int} (hinv : SetInv s a) {v : Nat}
    (hv : v < s.max_val_excluded) (hav : a v = 1) :
    (s.remove v).1 = true ∧
    SetInv (s.remove v).2 (Function.update a v 0) ∧
    (s.remove v).2.num_elements + 1 = s.num_elements ∧
    (s.remove v).2.max_val_excluded = s.max_val_excluded := by
  obtain ⟨hcap, hw, hlen, h01, hout, hcard⟩ := hinv
  have hmem : v ∈ (Finset.range s.max_val_excluded).filter (fun x => a x = 1) := by
    simp [hv, hav]
  have hnum : 0 < s.num_elements := by
    rw [hcard]
    exact Finset.card_pos.mpr ⟨v, hmem⟩
  have hnotc : ¬(s.max_val_excluded ≤ v ∨ ¬s.contains v = true ∨ s.num_elements = 0) := by
    rintro (h | h | h)
    · omega
    · exact h ((contains_iff ⟨hcap, hw, hlen, h01, hout, hcard⟩ v).mpr ⟨hv, hav⟩)
    · omega
  have hrem : s.remove v =
      (true, { s with inner := s.inner.add v (-1), num_elements := s.num_elements - 1 }) := by
    rw [FenwickSet.remove, if_neg]
    simpa using hnotc
  rw [hrem]
  refine ⟨rfl, ⟨hcap, ?_, hlen, ?_, ?_, ?_⟩, by show s.num_elements - 1 + 1 = _; omega, rfl⟩
  · have := wf_add hw (show v < s.inner.len by omega) (-1)
    have heq : Function.update a v (a v + (-1)) = Function.update a v 0 := by
      rw [hav]
      norm_num
    rwa [heq] at this
  · intro x
    rw [Function.update_apply]
    split
    · omega
    · exact h01 x
  · intro x hx
    have hx' : s.max_val_excluded ≤ x := hx
    rw [Function.update_apply, if_neg (by omega)]
    exact hout x hx'
  · show s.num_elements - 1 = _
    rw [filter_update_zero, Finset.card_erase_of_mem hmem, hcard]

theorem with_capacity_inv {n : Nat} {s : FenwickSet}
    (h : FenwickSet.with_capacity n = some s) : SetInv s (fun _ => 0) := by
  rw [FenwickSet.with_capacity] at h
  by_cases hn : n ≤ 50000000
  · rw [if_pos hn] at h
    obtain rfl := Option.some_injective _ h.symm
    refine ⟨hn, wf_new n, rfl, fun v => Or.inl rfl, fun v _ => rfl, ?_⟩
    simp
  · rw [if_neg hn] at h
    exact absurd h (by simp)

/-- Every reachable state satisfies the invariant for some 0/1 array. -/
theorem reachable_inv {s : FenwickSet} (h : Reachable s) : ∃ a, SetInv s a := by
  induction h with
  | init n s hcap => exact ⟨fun _ => 0, with_capacity_inv hcap⟩
  | ins s v _ ih =>
    obtain ⟨a, hinv⟩ := ih
    by_cases hv : v < s.max_val_excluded
    · rcases (hinv.2.2.2.1 v) with h0 | h1
      · exact ⟨Function.update a v 1, ((insert_ok hinv hv h0).2.1)⟩
      · rw [insert_fail hinv (Or.inr h1)]
        exact ⟨a, hinv⟩
    · rw [insert_fail hinv (Or.inl (by omega))]
      exact ⟨a, hinv⟩
  | rem s v _ ih =>
    obtain ⟨a, hinv⟩ := ih
    by_cases hv : v < s.max_val_excluded
    · rcases (hinv.2.2.2.1 v) with h0 | h1
      · rw [remove_fail hinv (Or.inr h0)]
        exact ⟨a, hinv⟩
      · exact ⟨Function.update a v 0, ((remove_ok hinv hv h1).2.1)⟩
    · rw [remove_fail hinv (Or.inl (by omega))]
      exact ⟨a, hinv⟩

/-! ### `nth` and iteration under the invariant -/

theorem i32wrap_eq {x : Int} (h1 : -(2 ^ 31) ≤ x) (h2 : x < 2 ^ 31) : i32wrap x = x := by
  rw [i32wrap, Int.emod_eq_of_lt (by omega) (by omega)]
  omega

/-- The cached cardinality never exceeds the capacity. -/
theorem num_le_cap {s : FenwickSet} {a : Nat → Int} (hinv : SetInv s a) :
    s.num_elements ≤ s.max_val_excluded := by
  rw [hinv.2.2.2.2.2]
  calc ((Finset.range s.max_val_excluded).filter (fun v => a v = 1)).card
      ≤ (Finset.range s.max_val_excluded).card := Finset.card_filter_le _ _
    _ = s.max_val_excluded := Finset.card_range _

/-- The total prefix sum is the cached cardinality. -/
theorem psum_cap {s : FenwickSet} {a : Nat → Int} (hinv : SetInv s a) :
    psum a s.max_val_excluded = s.num_elements := by
  rw [psum_count hinv.2.2.2.1, hinv.2.2.2.2.2]

/-- `nth k` for an in-range rank `k` (under the invariant the query `k + 1`
never wraps, because `k < cardinality ≤ capacity ≤ 50 000 000 < 2^31`):
returns the position of the `(k+1)`-st one, i.e. the unique present value
with exactly `k` present values below it. -/
theorem nth_spec {s : FenwickSet} {a : Nat → Int} (hinv : SetInv s a) {k : Nat}
    (hk : k < s.num_elements) :
    ∃ r, s.nth k = some r ∧ r < s.max_val_excluded ∧ a r = 1 ∧ psum a r = k := by
  obtain ⟨hcap, hw, hlen, h01, hout, hcard⟩ := hinv
  have hinv' : SetInv s a := ⟨hcap, hw, hlen, h01, hout, hcard⟩
  have hnum := num_le_cap hinv'
  have hk31 : (k : Int) + 1 < 2 ^ 31 := by
    have : (k : Int) < 50000000 := by exact_mod_cast Nat.lt_of_lt_of_le (Nat.lt_of_lt_of_le hk hnum) hcap
    omega
  have hquery : i32wrap (i32ofNat k + 1) = (k : Int) + 1 := by
    rw [i32ofNat, i32wrap_eq (x := (k : Int)) (by omega) (by omega),
      i32wrap_eq (by omega) (by omega)]
  have hrw0 : s.nth k =
      (if s.max_val_excluded ≤ s.inner.lower_bound (i32wrap (i32ofNat k + 1)) then none
       else some (s.inner.lower_bound (i32wrap (i32ofNat k + 1)))) := rfl
  rw [hquery] at hrw0
  have hrw := hrw0
  obtain ⟨c1, c2, c3⟩ := lower_bound_spec hw (q := (k : Int) + 1) (by omega)
  set r := s.inner.lower_bound ((k : Int) + 1) with hr
  have hpsum_len : psum a s.inner.len = s.num_elements := by
    rw [hlen]; exact psum_cap hinv'
  have hrlt : r < s.inner.len := by
    rcases Nat.lt_or_ge r s.inner.len with h | h
    · exact h
    · exfalso
      have : r = s.inner.len := by omega
      rw [this, hpsum_len] at c2
      have : (s.num_elements : Int) < (k : Int) + 1 := c2
      omega
  have hnext : (k : Int) + 1 ≤ psum a (r + 1) := by
    rcases c3 with h | h
    · omega
    · exact h
  rw [psum_succ] at hnext
  have har : a r = 1 := by
    rcases h01 r with h | h
    · omega
    · exact h
  refine ⟨r, ?_, by omega, har, by omega⟩
  rw [hrw, if_neg (by omega)]

/-- The iterator, started at cursor `c` with accumulator `psum a c`, emits
exactly the present values in `[c, len)` in ascending order. -/
theorem iterFrom_filter {t : FenwickTree} {a : Nat → Int} (hw : Wf t a) :
    ∀ d c, t.len - c ≤ d →
      iterFrom t c (psum a c) =
        (List.range' c (t.len - c)).filter (fun v => decide (a v = 1)) := by
  intro d
  induction d with
  | zero =>
    intro c hd
    rw [iterFrom_eq, if_neg (by omega)]
    have : t.len - c = 0 := by omega
    rw [this]
    rfl
  | succ d ih =>
    intro c hd
    by_cases hc : c < t.len
    · rw [iterFrom_eq, if_pos hc]
      have hsum : t.sum (c + 1) = psum a (c + 1) := sum_eq hw (c + 1) (by omega)
      have hdiff : psum a (c + 1) - psum a c = a c := by
        rw [psum_succ]; ring
      have hlen' : t.len - c = (t.len - (c + 1)) + 1 := by omega
      rw [hlen', List.range'_succ, List.filter_cons]
      simp only [hsum, hdiff, Nat.add_sub_cancel]
      by_cases hac : a c = 1
      · rw [if_pos hac, if_pos (by simp [hac])]
        rw [ih (c + 1) (by omega)]
      · rw [if_neg hac, if_neg (by simp [hac])]
        rw [ih (c + 1) (by omega)]
    · rw [iterFrom_eq, if_neg hc]
      have : t.len - c = 0 := by omega
      rw [this]
      rfl

/-- Collected iteration output is the ascending list of present values. -/
theorem iterOut_filter {s : FenwickSet} {a : Nat → Int} (hinv : SetInv s a) :
    s.iterOut = (List.range s.max_val_excluded).filter (fun v => decide (a v = 1)) := by
  have h0 : (0 : Int) = psum a 0 := (psum_zero a).symm
  rw [FenwickSet.iterOut, h0, iterFrom_filter hinv.2.1 s.inner.len 0 (by omega)]
  rw [List.range_eq_range']
  have heq : s.inner.len - 0 = s.max_val_excluded := by
    have := hinv.2.2.1
    omega
  rw [heq]

/-- Sorting the filtered range as a finite set gives the filtered range list. -/
theorem sort_filter_range (n : Nat) (p : Nat → Prop) [DecidablePred p] :
    ((Finset.range n).filter p).sort (· ≤ ·) =
      (List.range n).filter (fun v => decide (p v)) := by
  have hsl : ((List.range n).filter (fun v => decide (p v))).Sorted (· < ·) :=
    List.Pairwise.filter _ (List.pairwise_lt_range n)
  have hnd : ((List.range n).filter (fun v => decide (p v))).Nodup :=
    hsl.imp (fun h => Nat.ne_of_lt h)
  have hperm : List.Perm (((Finset.range n).filter p).sort (· ≤ ·))
      ((List.range n).filter (fun v => decide (p v))) := by
    rw [List.perm_ext_iff_of_nodup (Finset.sort_nodup _ _) hnd]
    intro x
    rw [Finset.mem_sort]
    simp [List.mem_filter]
  exact List.eq_of_perm_of_sorted hperm (Finset.sort_sorted _ _) (hsl.imp (fun h => Nat.le_of_lt h))

theorem runOps_cons (s : FenwickSet) (op : Op) (rest : List Op) :
    runOps s (op :: rest) =
      runOps (match op with
        | .ins v => (s.insert v).2
        | .del v => (s.remove v).2) rest := rfl

theorem runRef_cons (S : Finset Nat) (op : Op) (rest : List Op) :
    runRef S (op :: rest) =
      runRef (match op with
        | .ins v => insert v S
        | .del v => S.erase v) rest := rfl

/-- The Fenwick-backed set, run over any in-domain sequence of operations
from an invariant state, refines the mathematical set: the set of present
values evolves exactly as the reference model does. -/
theorem runOps_refines : ∀ (ops : List Op) (s : FenwickSet) (a : Nat → Int),
    SetInv s a → (∀ op ∈ ops, op.val < s.max_val_excluded) →
    ∃ a', SetInv (runOps s ops) a' ∧
      (runOps s ops).max_val_excluded = s.max_val_excluded ∧
      (Finset.range s.max_val_excluded).filter (fun v => a' v = 1) =
        runRef ((Finset.range s.max_val_excluded).filter (fun v => a v = 1)) ops := by
  intro ops
  induction ops with
  | nil =>
    intro s a hinv hdom
    exact ⟨a, hinv, rfl, rfl⟩
  | cons op rest ih =>
    intro s a hinv hdom
    have hv : op.val < s.max_val_excluded := hdom op (by simp)
    have hdom' : ∀ op2 ∈ rest, op2.val < s.max_val_excluded := fun op2 h2 =>
      hdom op2 (by simp [h2])
    rw [runOps_cons, runRef_cons]
    match op with
    | .ins v =>
      have hvv : v < s.max_val_excluded := hv
      show ∃ a', SetInv (runOps (s.insert v).2 rest) a' ∧
        (runOps (s.insert v).2 rest).max_val_excluded = s.max_val_excluded ∧
        (Finset.range s.max_val_excluded).filter (fun x => a' x = 1) =
          runRef (insert v ((Finset.range s.max_val_excluded).filter (fun x => a x = 1))) rest
      rcases hinv.2.2.2.1 v with h0 | h1
      · obtain ⟨_, hinv', hnum, hcap⟩ := insert_ok hinv hvv h0
        obtain ⟨a', ha1, ha2, ha3⟩ := ih (s.insert v).2 _ hinv' (by rw [hcap]; exact hdom')
        refine ⟨a', ha1, by rw [ha2, hcap], ?_⟩
        show (Finset.range s.max_val_excluded).filter (fun x => a' x = 1) =
          runRef (insert v ((Finset.range s.max_val_excluded).filter (fun x => a x = 1))) rest
        rw [hcap] at ha3
        rw [ha3, filter_update_one hvv]
      · have hs : (s.insert v).2 = s := by rw [insert_fail hinv (Or.inr h1)]
        rw [hs]
        obtain ⟨a', ha1, ha2, ha3⟩ := ih s a hinv hdom'
        refine ⟨a', ha1, ha2, ?_⟩
        show (Finset.range s.max_val_excluded).filter (fun x => a' x = 1) =
          runRef (insert v ((Finset.range s.max_val_excluded).filter (fun x => a x = 1))) rest
        rw [ha3]
        have hmem : v ∈ (Finset.range s.max_val_excluded).filter (fun x => a x = 1) := by
          simp [hvv, h1]
        rw [Finset.insert_eq_self.mpr hmem]
    | .del v =>
      have hvv : v < s.max_val_excluded := hv
      show ∃ a', SetInv (runOps (s.remove v).2 rest) a' ∧
        (runOps (s.remove v).2 rest).max_val_excluded = s.max_val_excluded ∧
        (Finset.range s.max_val_excluded).filter (fun x => a' x = 1) =
          runRef (((Finset.range s.max_val_excluded).filter (fun x => a x = 1)).erase v) rest
      rcases hinv.2.2.2.1 v with h0 | h1
      · have hs : (s.remove v).2 = s := by rw [remove_fail hinv (Or.inr h0)]
        rw [hs]
        obtain ⟨a', ha1, ha2, ha3⟩ := ih s a hinv hdom'
        refine ⟨a', ha1, ha2, ?_⟩
        show (Finset.range s.max_val_excluded).filter (fun x => a' x = 1) =
          runRef (((Finset.range s.max_val_excluded).filter (fun x => a x = 1)).erase v) rest
        rw [ha3]
        have hmem : v ∉ (Finset.range s.max_val_excluded).filter (fun x => a x = 1) := by
          simp [h0]
        rw [Finset.erase_eq_of_not_mem hmem]
      · obtain ⟨_, hinv', hnum, hcap⟩ := remove_ok hinv hvv h1
        obtain ⟨a', ha1, ha2, ha3⟩ := ih (s.remove v).2 _ hinv' (by rw [hcap]; exact hdom')
        refine ⟨a', ha1, by rw [ha2, hcap], ?_⟩
        show (Finset.range s.max_val_excluded).filter (fun x => a' x = 1) =
          runRef (((Finset.range s.max_val_excluded).filter (fun x => a x = 1)).erase v) rest
        rw [hcap] at ha3
        rw [ha3, filter_update_zero]

/-- Membership after running only insertions of a list of values. -/
theorem runRef_ins_mem : ∀ (l : List Nat) (S : Finset Nat) (x : Nat),
    x ∈ runRef S (l.map Op.ins) ↔ x ∈ S ∨ x ∈ l := by
  intro l
  induction l with
  | nil =>
    intro S x
    simp [runRef]
  | cons v rest ih =>
    intro S x
    rw [List.map_cons, runRef_cons]
    simp only
    rw [ih (insert v S) x]
    simp [Finset.mem_insert]
    tauto

theorem getElem?_of_le {inner : List Int} {len idx : Nat}
    (hlen : inner.length = len + 1) (h : idx ≤ len) :
    inner[idx]? = some (inner.getD idx 0) := by
  have hlt : idx < inner.length := by omega
  rw [List.getElem?_eq_getElem hlt, List.getD_eq_getElem _ _ hlt]

theorem addLoopCAux_eq {len : Nat} {plus : Int} :
    ∀ fuel inner idx, List.length inner = len + 1 →
      addLoopCAux fuel inner len plus idx = some (addLoopAux fuel inner len plus idx) := by
  intro fuel
  induction fuel with
  | zero => intro inner idx hlen; rfl
  | succ fuel ih =>
    intro inner idx hlen
    rw [addLoopCAux, addLoopAux]
    split
    · rename_i hle
      rw [getElem?_of_le hlen hle]
      exact ih _ _ (by simp [hlen])
    · rfl

theorem sumLoopCAux_eq {len : Nat} :
    ∀ fuel inner idx, List.length inner = len + 1 → idx ≤ len →
      sumLoopCAux fuel inner idx = some (sumLoopAux fuel inner idx) := by
  intro fuel
  induction fuel with
  | zero => intro inner idx hlen hle; rfl
  | succ fuel ih =>
    intro inner idx hlen hle
    rw [sumLoopCAux, sumLoopAux]
    split
    · rename_i hpos
      rw [getElem?_of_le hlen hle, ih inner (idx - lowbitN idx) hlen (by omega)]
    · rfl

theorem lbLoopCAux_eq {len : Nat} :
    ∀ fuel inner k cur (query : Int), List.length inner = len + 1 → cur ≤ len →
      lbLoopCAux fuel inner len k cur query = some (lbLoopAux fuel inner len k cur query) := by
  intro fuel
  induction fuel with
  | zero => intro inner k cur query hlen hcur; rfl
  | succ fuel ih =>
    intro inner k cur query hlen hcur
    rw [lbLoopCAux, lbLoopAux]
    by_cases hk : k = 0
    · rw [if_pos hk, if_pos hk]
    · rw [if_neg hk, if_neg hk]
      show (if cur + k / 2 > len then lbLoopCAux fuel inner len (k / 2) cur query
          else match inner[cur + k / 2]? with
            | none => none
            | some val =>
              if val < query then
                lbLoopCAux fuel inner len (k / 2) (cur + k / 2) (query - val)
              else lbLoopCAux fuel inner len (k / 2) cur query) =
        some (if cur + k / 2 > len then lbLoopAux fuel inner len (k / 2) cur query
          else if inner.getD (cur + k / 2) 0 < query then
            lbLoopAux fuel inner len (k / 2) (cur + k / 2) (query - inner.getD (cur + k / 2) 0)
          else lbLoopAux fuel inner len (k / 2) cur query)
      by_cases hnxt : cur + k / 2 > len
      · rw [if_pos hnxt, if_pos hnxt]
        exact ih inner _ cur query hlen hcur
      · rw [if_neg hnxt, if_neg hnxt]
        push_neg at hnxt
        rw [getElem?_of_le hlen hnxt]
        show (if inner.getD (cur + k / 2) 0 < query then
            lbLoopCAux fuel inner len (k / 2) (cur + k / 2) (query - inner.getD (cur + k / 2) 0)
          else lbLoopCAux fuel inner len (k / 2) cur query) = _
        by_cases hval : inner.getD (cur + k / 2) 0 < query
        · rw [if_pos hval, if_pos hval]
          exact ih inner _ _ _ hlen hnxt
        · rw [if_neg hval, if_neg hval]
          exact ih inner _ cur query hlen hcur

theorem addC_eq {t : FenwickTree} (hlen : t.inner.length = t.len + 1) (idx : Nat) (plus : Int) :
    t.addC idx plus = some (t.add idx plus) := by
  rw [FenwickTree.addC, addLoopCAux_eq (t.len + 1) t.inner (idx + 1) hlen]
  rfl

theorem sumC_eq {t : FenwickTree} (hlen : t.inner.length = t.len + 1) {m : Nat}
    (hm : m ≤ t.len) : t.sumC m = some (t.sum m) :=
  sumLoopCAux_eq m t.inner m hlen hm

theorem sum_rangeC_eq {t : FenwickTree} (hlen : t.inner.length = t.len + 1) {start stop : Nat}
    (h1 : start ≤ t.len) (h2 : stop ≤ t.len) :
    t.sum_rangeC start stop = some (t.sum_range start stop) := by
  rw [FenwickTree.sum_rangeC, sumC_eq hlen h2]
  show (if start = 0 then some (t.sum stop)
      else match t.sumC start with
        | none => none
        | some sum2 => some (t.sum stop - sum2)) = some (t.sum_range start stop)
  rw [FenwickTree.sum_range]
  show _ = some (if start = 0 then t.sum stop else t.sum stop - t.sum start)
  by_cases h0 : start = 0
  · rw [if_pos h0, if_pos h0]
  · rw [if_neg h0, if_neg h0, sumC_eq hlen h1]

theorem lower_boundC_eq {t : FenwickTree} (hlen : t.inner.length = t.len + 1) (query : Int) :
    t.lower_boundC query = some (t.lower_bound query) := by
  rw [FenwickTree.lower_boundC, FenwickTree.lower_bound]
  split
  · rfl
  · exact lbLoopCAux_eq _ t.inner _ 0 query hlen (by omega)

theorem containsC_eq {s : FenwickSet} (hlen : s.inner.inner.length = s.inner.len + 1)
    (hcap : s.max_val_excluded = s.inner.len) (elem : Nat) :
    s.containsC elem = some (s.contains elem) := by
  rw [FenwickSet.containsC, FenwickSet.contains]
  by_cases hel : s.max_val_excluded ≤ elem
  · rw [if_pos hel, if_pos hel]
  · rw [if_neg hel, if_neg hel, sum_rangeC_eq hlen (by omega) (by omega)]

theorem insertC_eq {s : FenwickSet} (hlen : s.inner.inner.length = s.inner.len + 1)
    (hcap : s.max_val_excluded = s.inner.len) (elem : Nat) :
    s.insertC elem = some (s.insert elem) := by
  rw [FenwickSet.insertC, containsC_eq hlen hcap, FenwickSet.insert]
  show (if s.max_val_excluded ≤ elem ∨ s.contains elem then some (false, s)
      else match s.inner.addC elem 1 with
        | none => none
        | some t => some (true, { s with inner := t, num_elements := s.num_elements + 1 })) = _
  by_cases hc : s.max_val_excluded ≤ elem ∨ s.contains elem
  · rw [if_pos hc, if_pos hc]
  · rw [if_neg hc, if_neg hc, addC_eq hlen]

theorem removeC_eq {s : FenwickSet} (hlen : s.inner.inner.length = s.inner.len + 1)
    (hcap : s.max_val_excluded = s.inner.len) (elem : Nat) :
    s.removeC elem = some (s.remove elem) := by
  rw [FenwickSet.removeC, containsC_eq hlen hcap, FenwickSet.remove]
  show (if s.max_val_excluded ≤ elem ∨ ¬s.contains elem ∨ s.num_elements = 0
        then some (false, s)
      else match s.inner.addC elem (-1) with
        | none => none
        | some t => some (true, { s with inner := t, num_elements := s.num_elements - 1 })) = _
  by_cases hc : s.max_val_excluded ≤ elem ∨ ¬s.contains elem ∨ s.num_elements = 0
  · rw [if_pos hc, if_pos hc]
  · rw [if_neg hc, if_neg hc, addC_eq hlen]

theorem nthC_eq {s : FenwickSet} (hlen : s.inner.inner.length = s.inner.len + 1) (n : Nat) :
    s.nthC n = some (s.nth n) := by
  rw [FenwickSet.nthC, lower_boundC_eq hlen, Option.map_some']
  have hnth : s.nth n =
      if s.max_val_excluded ≤ s.inner.lower_bound (i32wrap (i32ofNat n + 1)) then none
      else some (s.inner.lower_bound (i32wrap (i32ofNat n + 1))) := rfl
  rw [hnth]

theorem selectC_eq {s : FenwickSet} (hlen : s.inner.inner.length = s.inner.len + 1)
    (draw : Nat → Nat) : s.selectC draw = some (s.select draw) := by
  rw [FenwickSet.selectC, FenwickSet.select]
  split
  · rfl
  · exact nthC_eq hlen _

theorem iterFromCAux_eq {t : FenwickTree} (hlen : t.inner.length = t.len + 1) :
    ∀ fuel current (before : Int),
      iterFromCAux fuel t current before = some (iterFromAux fuel t current before) := by
  intro fuel
  induction fuel with
  | zero => intro current before; rfl
  | succ fuel ih =>
    intro current before
    rw [iterFromCAux, iterFromAux]
    by_cases hlt : current < t.len
    · rw [if_pos hlt, if_pos hlt, sumC_eq hlen (by omega)]
      show (if t.sum (current + 1) - before = 1 then
          match iterFromCAux fuel t (current + 1) (t.sum (current + 1)) with
          | none => none
          | some rest => some ((current + 1 - 1) :: rest)
        else iterFromCAux fuel t (current + 1) (t.sum (current + 1))) = _
      by_cases hd : t.sum (current + 1) - before = 1
      · rw [if_pos hd, if_pos hd, ih]
      · rw [if_neg hd, if_neg hd]
        exact ih _ _
    · rw [if_neg hlt, if_neg hlt]

theorem iterOutC_eq {s : FenwickSet} (hlen : s.inner.inner.length = s.inner.len + 1) :
    s.iterOutC = some s.iterOut := by
  rw [FenwickSet.iterOutC, FenwickSet.iterOut, iterFromCAux_eq hlen,
    iterFromAux_eq_iterFrom s.inner.len s.inner 0 0 (by omega)]

theorem with_capacity_some {n : Nat} {s : FenwickSet}
    (h : FenwickSet.with_capacity n = some s) :
    n ≤ 50000000 ∧
      s = { inner := FenwickTree.new n, num_elements := 0, max_val_excluded := n } := by
  rw [FenwickSet.with_capacity] at h
  by_cases hn : n ≤ 50000000
  · rw [if_pos hn] at h
    exact ⟨hn, (Option.some_injective _ h).symm⟩
  · rw [if_neg hn] at h
    exact absurd h (by simp)

/-- `ldiff p (p - 1)` isolates the lowest set bit. -/
theorem ldiff_pred {p : Nat} (hp : 0 < p) : Nat.ldiff p (p - 1) = lowbitN p := by
  induction p using Nat.strong_induction_on with
  | _ p ih =>
    rcases Nat.even_or_odd p with he | ho
    · obtain ⟨q, hq⟩ := he
      have hqpos : 0 < q := by omega
      have hb1 : p = Nat.bit false q := by simp [Nat.bit_false]; omega
      have hb2 : p - 1 = Nat.bit true (q - 1) := by simp [Nat.bit_true]; omega
      calc Nat.ldiff p (p - 1)
          = Nat.ldiff (Nat.bit false q) (Nat.bit true (q - 1)) := by rw [← hb1, ← hb2]
        _ = Nat.bit (false && !true) (Nat.ldiff q (q - 1)) := Nat.ldiff_bit _ _ _ _
        _ = 2 * Nat.ldiff q (q - 1) := by simp [Nat.bit_false]
        _ = 2 * lowbitN q := by rw [ih q (by omega) hqpos]
        _ = lowbitN p := by
            rw [lowbitN_even hp (by omega), show p / 2 = q by omega]
    · obtain ⟨q, hq⟩ := ho
      have hb1 : p = Nat.bit true q := by simp [Nat.bit_true]; omega
      have hb2 : p - 1 = Nat.bit false q := by simp [Nat.bit_false]; omega
      have hd : Nat.ldiff q q = 0 := by
        apply Nat.eq_of_testBit_eq
        intro i
        rw [Nat.testBit_ldiff]
        simp
      calc Nat.ldiff p (p - 1)
          = Nat.ldiff (Nat.bit true q) (Nat.bit false q) := by rw [← hb1, ← hb2]
        _ = Nat.bit (true && !false) (Nat.ldiff q q) := Nat.ldiff_bit _ _ _ _
        _ = 1 := by rw [hd]; simp [Nat.bit_true]
        _ = lowbitN p := (lowbitN_odd (by omega)).symm

/-- The literal machine expression `idx & -idx` agrees with `lowbitN` on
every non-negative index: the translation used inside the loop bodies is
faithful. -/
theorem lowbit_int_eq_lowbitN (p : Nat) : lowbit (p : Int) = (lowbitN p : Int) := by
  match p with
  | 0 => rfl
  | p + 1 =>
    show intAnd (Int.ofNat (p + 1)) (-(Int.ofNat (p + 1))) = _
    have hneg : -(Int.ofNat (p + 1)) = Int.negSucc p := rfl
    rw [hneg]
    show Int.ofNat (Nat.ldiff (p + 1) p) = _
    have hld := ldiff_pred (p := p + 1) (by omega)
    rw [show p + 1 - 1 = p by omega] at hld
    rw [hld]
    rfl

/-! ### Claim theorems -/

/-- Claim C1, counterexample: on the tree over `[0, 2)` holding a single
increment at position 0, `lower_bound 1` returns `0` although the query is
positive — the contract as claimed (minimal `i` with `1 ≤ i ≤ domain_size`
whose prefix sum over `[0, i)` reaches the query, `0` only for
`query ≤ 0`) is violated: the minimal such `i` here is 1. -/
theorem C1_counterexample :
    ((FenwickTree.new 2).add 0 1).lower_bound 1 = 0 ∧
    ¬lowerBoundClaimed ((FenwickTree.new 2).add 0 1) 1
      (((FenwickTree.new 2).add 0 1).lower_bound 1) := by
  have h0 : ((FenwickTree.new 2).add 0 1).lower_bound 1 = 0 := by decide
  refine ⟨h0, ?_⟩
  rw [h0, lowerBoundClaimed, if_neg (by norm_num)]
  rintro ⟨h1, -⟩
  omega

/-- Claim C1, amended: for every tree state that is well-formed over a
non-negative per-position array, `lower_bound query` returns `0` when
`query ≤ 0`, and otherwise returns the greatest index `j ≤ domain_size`
whose prefix sum over `[0, j)` is still `< query` — equivalently, the
minimal 0-indexed position whose prefix sum over `[0, j + 1)` reaches
`query`, or `domain_size` when the total never reaches it. -/
theorem C1_lower_bound (t : FenwickTree) (a : Nat → Int) (q : Int)
    (hw : Wf t a) (ha : ∀ j, 0 ≤ a j) :
    (q ≤ 0 → t.lower_bound q = 0) ∧
    (0 < q →
      t.lower_bound q ≤ t.len ∧
      IsGreatest {j | j ≤ t.len ∧ psum a j < q} (t.lower_bound q) ∧
      (t.lower_bound q = t.len ∨ q ≤ psum a (t.lower_bound q + 1))) := by
  constructor
  · exact fun hq => lower_bound_of_nonpos t hq
  · intro hq
    obtain ⟨c1, c2, c3⟩ := lower_bound_spec hw hq
    exact ⟨c1, lower_bound_isGreatest hw ha hq, c3⟩

theorem C1_witness :
    Wf ((FenwickTree.new 2).add 1 1) (fun j => if j = 1 then 1 else 0) ∧
    (0 : Int) < 1 ∧
    (((FenwickTree.new 2).add 1 1).lower_bound 1 ≤ ((FenwickTree.new 2).add 1 1).len ∧
      IsGreatest {j | j ≤ ((FenwickTree.new 2).add 1 1).len ∧
          psum (fun j => if j = 1 then (1 : Int) else 0) j < 1}
        (((FenwickTree.new 2).add 1 1).lower_bound 1) ∧
      (((FenwickTree.new 2).add 1 1).lower_bound 1 = ((FenwickTree.new 2).add 1 1).len ∨
        (1 : Int) ≤ psum (fun j => if j = 1 then 1 else 0)
          (((FenwickTree.new 2).add 1 1).lower_bound 1 + 1))) := by
  have hw : Wf ((FenwickTree.new 2).add 1 1) (fun j => if j = 1 then 1 else 0) := by
    constructor
    · decide
    · intro i h1 h2
      have hlen : ((FenwickTree.new 2).add 1 1).len = 2 := rfl
      rw [hlen] at h2
      interval_cases i <;> decide
  refine ⟨hw, by norm_num, ?_⟩
  exact (C1_lower_bound ((FenwickTree.new 2).add 1 1) (fun j => if j = 1 then 1 else 0) 1
    hw (fun j => by dsimp only; split <;> norm_num)).2 (by norm_num)

/-- Claim C2, code bug evaluated at the failing input: on the empty set of
capacity 1, whose cardinality is 0, `nth 2147483647` returns `some 0`
instead of the claimed absent: the query `n as i32 + 1` wraps to `-2^31`,
so `lower_bound` takes its `query ≤ 0` early return. -/
theorem C2_nth_overflow :
    (FenwickSet.with_capacity 1).map (fun s => (s.len, s.nth 2147483647)) =
      some (0, some 0) := by decide

/-- Claim C3: in every reachable set state, every in-domain per-position
delta sum (observed as `sum_range v (v+1)`, the quantity `contains`
compares against 1) is 0 or 1, and the cached cardinality equals the number
of in-domain positions whose delta sum is exactly 1. -/
theorem C3_cardinality_invariant (s : FenwickSet) (h : Reachable s) :
    (∀ v, v < s.max_val_excluded → s.delta v = 0 ∨ s.delta v = 1) ∧
    s.num_elements =
      ((Finset.range s.max_val_excluded).filter (fun v => s.delta v = 1)).card := by
  obtain ⟨a, hinv⟩ := reachable_inv h
  obtain ⟨hcap, hw, hlen, h01, hout, hcard⟩ := hinv
  have hdelta : ∀ v, v < s.max_val_excluded → s.delta v = a v := by
    intro v hv
    exact sum_range_single hw (by omega)
  constructor
  · intro v hv
    rw [hdelta v hv]
    exact h01 v
  · rw [hcard]
    have hfeq : (Finset.range s.max_val_excluded).filter (fun v => s.delta v = 1) =
        (Finset.range s.max_val_excluded).filter (fun v => a v = 1) := by
      apply Finset.filter_congr
      intro x hx
      rw [Finset.mem_range] at hx
      simp [hdelta x hx]
    rw [hfeq]

theorem C3_witness :
    (∀ v, v < (⟨FenwickTree.new 2, 0, 2⟩ : FenwickSet).max_val_excluded →
      FenwickSet.delta ⟨FenwickTree.new 2, 0, 2⟩ v = 0 ∨
      FenwickSet.delta ⟨FenwickTree.new 2, 0, 2⟩ v = 1) ∧
    (⟨FenwickTree.new 2, 0, 2⟩ : FenwickSet).num_elements =
      ((Finset.range (⟨FenwickTree.new 2, 0, 2⟩ : FenwickSet).max_val_excluded).filter
        (fun v => FenwickSet.delta ⟨FenwickTree.new 2, 0, 2⟩ v = 1)).card :=
  C3_cardinality_invariant ⟨FenwickTree.new 2, 0, 2⟩ (Reachable.init 2 _ (by decide))

/-- Claim C4, counterexample: with capacity 1, the single operation
`insert 1` addresses a value outside `[0, capacity)`; the structure refuses
it (iteration output stays empty) while a reference mathematical set updated
by the same operation gains the element 1, so the two disagree. -/
theorem C4_counterexample :
    (FenwickSet.with_capacity 1).map
      (fun s => FenwickSet.iterOut (runOps s [Op.ins 1])) = some [] ∧
    (runRef ∅ [Op.ins 1]).sort (· ≤ ·) = [1] := by
  constructor
  · decide
  · have h1 : runRef ∅ [Op.ins 1] = {1} := rfl
    rw [h1, Finset.sort_singleton]

/-- Claim C4, amended: for every capacity within the ceiling and every
finite sequence of insert and remove operations from the empty set whose
addressed values all lie inside `[0, capacity)`, the structure gives the
same membership answer as the reference mathematical set for every value,
and its iteration output is exactly the ascending enumeration of the
reference set.  (Quantifying over all such sequences covers the state after
each step of any longer run.) -/
theorem C4_refinement (cap : Nat) (s0 : FenwickSet) (ops : List Op)
    (hcap : FenwickSet.with_capacity cap = some s0)
    (hdom : ∀ op ∈ ops, op.val < cap) :
    (∀ v, (runOps s0 ops).contains v = true ↔ v ∈ runRef ∅ ops) ∧
    FenwickSet.iterOut (runOps s0 ops) = (runRef ∅ ops).sort (· ≤ ·) := by
  have hinv0 : SetInv s0 (fun _ => 0) := with_capacity_inv hcap
  obtain ⟨hle, rfl⟩ := with_capacity_some hcap
  have hmax : (⟨FenwickTree.new cap, 0, cap⟩ : FenwickSet).max_val_excluded = cap := rfl
  obtain ⟨a', ha1, ha2, ha3⟩ :=
    runOps_refines ops ⟨FenwickTree.new cap, 0, cap⟩ (fun _ => 0) hinv0
      (by rw [hmax]; exact hdom)
  have hempty : (Finset.range cap).filter (fun v => (fun _ => (0 : Int)) v = 1) = ∅ := by
    apply Finset.filter_false_of_mem
    intro x hx
    norm_num
  rw [hmax] at ha3
  rw [hempty] at ha3
  have hempty2 : runRef ∅ ops = (Finset.range cap).filter (fun v => a' v = 1) := ha3.symm
  constructor
  · intro v
    rw [contains_iff ha1 v, hempty2, Finset.mem_filter, Finset.mem_range, ha2, hmax]
  · rw [iterOut_filter ha1, hempty2, sort_filter_range, ha2, hmax]

theorem C4_witness :
    (∀ v, (runOps ⟨FenwickTree.new 3, 0, 3⟩ [Op.ins 1, Op.ins 2, Op.del 1]).contains v = true ↔
      v ∈ runRef ∅ [Op.ins 1, Op.ins 2, Op.del 1]) ∧
    FenwickSet.iterOut (runOps ⟨FenwickTree.new 3, 0, 3⟩ [Op.ins 1, Op.ins 2, Op.del 1]) =
      (runRef ∅ [Op.ins 1, Op.ins 2, Op.del 1]).sort (· ≤ ·) :=
  C4_refinement 3 ⟨FenwickTree.new 3, 0, 3⟩ [Op.ins 1, Op.ins 2, Op.del 1]
    (by decide) (by decide)

/-- Claim C5: in every reachable state, for every in-domain value `v`, a
successful `insert v` makes `contains v` true and increases the cached
cardinality by exactly one, and a second `insert v` on the resulting state
returns `false` and leaves the cardinality unchanged. -/
theorem C5_insert_spec (s : FenwickSet) (v : Nat) (h : Reachable s)
    (hv : v < s.max_val_excluded) (hins : (s.insert v).1 = true) :
    (s.insert v).2.contains v = true ∧
    (s.insert v).2.num_elements = s.num_elements + 1 ∧
    ((s.insert v).2.insert v).1 = false ∧
    ((s.insert v).2.insert v).2.num_elements = (s.insert v).2.num_elements := by
  obtain ⟨a, hinv⟩ := reachable_inv h
  rcases hinv.2.2.2.1 v with h0 | h1
  · obtain ⟨hb, hinv', hnum, hcap⟩ := insert_ok hinv hv h0
    have hcont : (s.insert v).2.contains v = true := by
      rw [contains_iff hinv']
      exact ⟨by rw [hcap]; omega, by rw [Function.update_same]⟩
    have h2nd := insert_fail hinv' (Or.inr (Function.update_same v 1 a))
    exact ⟨hcont, hnum, by rw [h2nd], by rw [h2nd]⟩
  · rw [insert_fail hinv (Or.inr h1)] at hins
    exact absurd hins (by simp)

theorem C5_witness :
    1 < (⟨FenwickTree.new 2, 0, 2⟩ : FenwickSet).max_val_excluded ∧
    ((⟨FenwickTree.new 2, 0, 2⟩ : FenwickSet).insert 1).1 = true ∧
    (((⟨FenwickTree.new 2, 0, 2⟩ : FenwickSet).insert 1).2.contains 1 = true ∧
     ((⟨FenwickTree.new 2, 0, 2⟩ : FenwickSet).insert 1).2.num_elements =
       (⟨FenwickTree.new 2, 0, 2⟩ : FenwickSet).num_elements + 1 ∧
     (((⟨FenwickTree.new 2, 0, 2⟩ : FenwickSet).insert 1).2.insert 1).1 = false ∧
     (((⟨FenwickTree.new 2, 0, 2⟩ : FenwickSet).insert 1).2.insert 1).2.num_elements =
       ((⟨FenwickTree.new 2, 0, 2⟩ : FenwickSet).insert 1).2.num_elements) :=
  ⟨by decide, by decide,
    C5_insert_spec ⟨FenwickTree.new 2, 0, 2⟩ 1 (Reachable.init 2 _ (by decide))
      (by decide) (by decide)⟩

/-- Claim C6: in every reachable state, `remove v` directly after a
successful `insert v` returns `true`, makes `contains v` false and
decreases the cardinality by exactly one; and `remove v` of an absent or
out-of-domain value returns `false` with the state (all three fields)
unchanged. -/
theorem C6_remove_spec (s : FenwickSet) (v : Nat) (h : Reachable s) :
    ((s.insert v).1 = true →
      ((s.insert v).2.remove v).1 = true ∧
      ((s.insert v).2.remove v).2.contains v = false ∧
      ((s.insert v).2.remove v).2.num_elements + 1 = (s.insert v).2.num_elements) ∧
    ((s.contains v = false ∨ s.max_val_excluded ≤ v) → s.remove v = (false, s)) := by
  obtain ⟨a, hinv⟩ := reachable_inv h
  constructor
  · intro hins
    by_cases hv : v < s.max_val_excluded
    · rcases hinv.2.2.2.1 v with h0 | h1
      · obtain ⟨hb, hinv', hnum, hcap⟩ := insert_ok hinv hv h0
        obtain ⟨rb, rinv, rnum, rcap⟩ :=
          remove_ok hinv' (by rw [hcap]; omega) (Function.update_same v 1 a)
        refine ⟨rb, ?_, rnum⟩
        have hnc : ¬(((s.insert v).2.remove v).2.contains v = true) := by
          rw [contains_iff rinv]
          rintro ⟨-, hx⟩
          rw [Function.update_same] at hx
          norm_num at hx
        simp only [Bool.not_eq_true] at hnc
        exact hnc
      · rw [insert_fail hinv (Or.inr h1)] at hins
        exact absurd hins (by simp)
    · rw [insert_fail hinv (Or.inl (by omega))] at hins
      exact absurd hins (by simp)
  · rintro (hc | hc)
    · by_cases hv : v < s.max_val_excluded
      · have h0 : a v = 0 := by
          rcases hinv.2.2.2.1 v with h0 | h1
          · exact h0
          · exfalso
            have := (contains_iff hinv v).mpr ⟨hv, h1⟩
            rw [hc] at this
            exact absurd this (by simp)
        exact remove_fail hinv (Or.inr h0)
      · exact remove_fail hinv (Or.inl (by omega))
    · exact remove_fail hinv (Or.inl hc)

theorem C6_witness :
    ((⟨FenwickTree.new 2, 0, 2⟩ : FenwickSet).insert 1).1 = true ∧
    ((((⟨FenwickTree.new 2, 0, 2⟩ : FenwickSet).insert 1).2.remove 1).1 = true ∧
     (((⟨FenwickTree.new 2, 0, 2⟩ : FenwickSet).insert 1).2.remove 1).2.contains 1 = false ∧
     (((⟨FenwickTree.new 2, 0, 2⟩ : FenwickSet).insert 1).2.remove 1).2.num_elements + 1 =
       ((⟨FenwickTree.new 2, 0, 2⟩ : FenwickSet).insert 1).2.num_elements) ∧
    (⟨FenwickTree.new 2, 0, 2⟩ : FenwickSet).remove 0 = (false, ⟨FenwickTree.new 2, 0, 2⟩) := by
  have h := C6_remove_spec ⟨FenwickTree.new 2, 0, 2⟩ 1 (Reachable.init 2 _ (by decide))
  have h' := C6_remove_spec ⟨FenwickTree.new 2, 0, 2⟩ 0 (Reachable.init 2 _ (by decide))
  exact ⟨by decide, h.1 (by decide), h'.2 (Or.inl (by decide))⟩

/-- Claim C7: in every reachable state, with any randomness source whose
draw from `[0, n)` lands in `[0, n)`, `select` returns absent exactly when
the set is empty; any returned value is contained in the set; and on a
non-empty set the result is `nth` of the drawn index, which lies in
`[0, cardinality)`. -/
theorem C7_select_spec (s : FenwickSet) (draw : Nat → Nat) (h : Reachable s)
    (hdraw : ∀ n, 0 < n → draw n < n) :
    (s.select draw = none ↔ s.num_elements = 0) ∧
    (∀ v, s.select draw = some v → s.contains v = true) ∧
    (0 < s.num_elements →
      draw s.num_elements < s.num_elements ∧
      s.select draw = s.nth (draw s.num_elements)) := by
  obtain ⟨a, hinv⟩ := reachable_inv h
  by_cases h0 : s.num_elements = 0
  · rw [FenwickSet.select, if_pos h0]
    exact ⟨by simp [h0], by simp, by omega⟩
  · have hd := hdraw s.num_elements (by omega)
    obtain ⟨r, hnth, hr1, hr2, hr3⟩ := nth_spec hinv hd
    rw [FenwickSet.select, if_neg h0]
    refine ⟨?_, ?_, fun _ => ⟨hd, rfl⟩⟩
    · rw [hnth]
      simp [h0]
    · intro v hv
      rw [hnth] at hv
      have hvr : r = v := Option.some_injective _ hv
      rw [← hvr]
      exact (contains_iff hinv r).mpr ⟨hr1, hr2⟩

theorem C7_witness :
    (FenwickSet.select ((⟨FenwickTree.new 2, 0, 2⟩ : FenwickSet).insert 1).2 (fun n => n - 1) =
        none ↔ ((⟨FenwickTree.new 2, 0, 2⟩ : FenwickSet).insert 1).2.num_elements = 0) ∧
    (∀ v, FenwickSet.select ((⟨FenwickTree.new 2, 0, 2⟩ : FenwickSet).insert 1).2
        (fun n => n - 1) = some v →
      ((⟨FenwickTree.new 2, 0, 2⟩ : FenwickSet).insert 1).2.contains v = true) ∧
    (0 < ((⟨FenwickTree.new 2, 0, 2⟩ : FenwickSet).insert 1).2.num_elements →
      (fun n => n - 1) ((⟨FenwickTree.new 2, 0, 2⟩ : FenwickSet).insert 1).2.num_elements <
        ((⟨FenwickTree.new 2, 0, 2⟩ : FenwickSet).insert 1).2.num_elements ∧
      FenwickSet.select ((⟨FenwickTree.new 2, 0, 2⟩ : FenwickSet).insert 1).2 (fun n => n - 1) =
        ((⟨FenwickTree.new 2, 0, 2⟩ : FenwickSet).insert 1).2.nth
          ((fun n => n - 1) ((⟨FenwickTree.new 2, 0, 2⟩ : FenwickSet).insert 1).2.num_elements)) :=
  C7_select_spec ((⟨FenwickTree.new 2, 0, 2⟩ : FenwickSet).insert 1).2 (fun n => n - 1)
    (Reachable.ins _ 1 (Reachable.init 2 _ (by decide)))
    (fun n hn => by show n - 1 < n; omega)

/-- Claim C8: `with_capacity n` fails (the assertion, modelled as `none`,
fires before any tree is built) for every `n` above the fixed ceiling
50 000 000, never clamping; for every `n` at or below the ceiling it
returns exactly the empty set over `[0, n)`: capacity `n`, cardinality 0,
and `contains` false everywhere. -/
theorem C8_with_capacity (n : Nat) :
    (50000000 < n → FenwickSet.with_capacity n = none) ∧
    (n ≤ 50000000 →
      FenwickSet.with_capacity n =
        some { inner := FenwickTree.new n, num_elements := 0, max_val_excluded := n } ∧
      ∀ s, FenwickSet.with_capacity n = some s →
        s.max_val_excluded = n ∧ s.num_elements = 0 ∧ ∀ v, s.contains v = false) := by
  constructor
  · intro hn
    rw [FenwickSet.with_capacity, if_neg (by omega)]
  · intro hn
    refine ⟨by rw [FenwickSet.with_capacity, if_pos hn], ?_⟩
    intro s hs
    have hinv := with_capacity_inv hs
    obtain ⟨-, rfl⟩ := with_capacity_some hs
    refine ⟨rfl, rfl, ?_⟩
    intro v
    have hnc : ¬((⟨FenwickTree.new n, 0, n⟩ : FenwickSet).contains v = true) := by
      rw [contains_iff hinv]
      rintro ⟨-, hx⟩
      norm_num at hx
    simp only [Bool.not_eq_true] at hnc
    exact hnc

theorem C8_witness :
    FenwickSet.with_capacity 50000001 = none ∧
    (FenwickSet.with_capacity 5 =
        some { inner := FenwickTree.new 5, num_elements := 0, max_val_excluded := 5 } ∧
      ∀ s, FenwickSet.with_capacity 5 = some s →
        s.max_val_excluded = 5 ∧ s.num_elements = 0 ∧ ∀ v, s.contains v = false) :=
  ⟨(C8_with_capacity 50000001).1 (by norm_num), (C8_with_capacity 5).2 (by norm_num)⟩

/-- Claim C9: on every reachable state, every operation other than
construction — insert, remove, contains, nth (for every argument, however
large), select, and iteration — runs to completion with every underlying
array access in bounds: the bounds-checked variants, which return `none`
exactly when an access (a Rust panic) would be out of bounds, always return
`some` of the unchecked result. -/
theorem C9_totality (s : FenwickSet) (h : Reachable s) :
    (∀ v, s.insertC v = some (s.insert v)) ∧
    (∀ v, s.removeC v = some (s.remove v)) ∧
    (∀ v, s.containsC v = some (s.contains v)) ∧
    (∀ k, s.nthC k = some (s.nth k)) ∧
    (∀ draw, s.selectC draw = some (s.select draw)) ∧
    s.iterOutC = some s.iterOut := by
  obtain ⟨a, hinv⟩ := reachable_inv h
  have hlen : s.inner.inner.length = s.inner.len + 1 := hinv.2.1.1
  have hcap : s.max_val_excluded = s.inner.len := hinv.2.2.1.symm
  exact ⟨fun v => insertC_eq hlen hcap v, fun v => removeC_eq hlen hcap v,
    fun v => containsC_eq hlen hcap v, fun k => nthC_eq hlen k,
    fun draw => selectC_eq hlen draw, iterOutC_eq hlen⟩

theorem C9_witness :
    FenwickSet.insertC ⟨FenwickTree.new 2, 0, 2⟩ 0 =
      some (FenwickSet.insert ⟨FenwickTree.new 2, 0, 2⟩ 0) ∧
    FenwickSet.nthC ⟨FenwickTree.new 2, 0, 2⟩ 2147483647 =
      some (FenwickSet.nth ⟨FenwickTree.new 2, 0, 2⟩ 2147483647) ∧
    FenwickSet.iterOutC ⟨FenwickTree.new 2, 0, 2⟩ =
      some (FenwickSet.iterOut ⟨FenwickTree.new 2, 0, 2⟩) := by
  have h := C9_totality ⟨FenwickTree.new 2, 0, 2⟩ (Reachable.init 2 _ (by decide))
  exact ⟨h.1 0, h.2.2.2.1 2147483647, h.2.2.2.2.2⟩

/-- Claim C10: `from_range lo hi` fails construction (through
`with_capacity hi`, the same fatal precondition) exactly when `hi` exceeds
the 50 000 000 ceiling; otherwise it returns a set with capacity `hi`
containing exactly the values of `[lo, hi)` (empty when `lo ≥ hi`). -/
theorem C10_from_range (lo hi : Nat) :
    (50000000 < hi → FenwickSet.from_range lo hi = none) ∧
    (hi ≤ 50000000 → ∀ s, FenwickSet.from_range lo hi = some s →
      s.max_val_excluded = hi ∧ ∀ v, (s.contains v = true ↔ lo ≤ v ∧ v < hi)) := by
  constructor
  · intro hn
    rw [FenwickSet.from_range, FenwickSet.with_capacity, if_neg (by omega)]
    rfl
  · intro hn s hs
    have hwc : FenwickSet.with_capacity hi =
        some ⟨FenwickTree.new hi, 0, hi⟩ := by
      rw [FenwickSet.with_capacity, if_pos hn]
    rw [FenwickSet.from_range, hwc, Option.map_some'] at hs
    have hseq : s = (List.range' lo (hi - lo)).foldl (fun s i => (s.insert i).2)
        ⟨FenwickTree.new hi, 0, hi⟩ := (Option.some_injective _ hs).symm
    have hinv0 : SetInv (⟨FenwickTree.new hi, 0, hi⟩ : FenwickSet) (fun _ => 0) :=
      with_capacity_inv hwc
    have hfold : (List.range' lo (hi - lo)).foldl (fun s i => (s.insert i).2)
        (⟨FenwickTree.new hi, 0, hi⟩ : FenwickSet) =
        runOps ⟨FenwickTree.new hi, 0, hi⟩ ((List.range' lo (hi - lo)).map Op.ins) := by
      rw [runOps, List.foldl_map]
    obtain ⟨a', ha1, ha2, ha3⟩ :=
      runOps_refines ((List.range' lo (hi - lo)).map Op.ins) ⟨FenwickTree.new hi, 0, hi⟩
        (fun _ => 0) hinv0
        (by
          intro op hop
          rw [List.mem_map] at hop
          obtain ⟨w, hw1, rfl⟩ := hop
          rw [List.mem_range'_1] at hw1
          show w < (⟨FenwickTree.new hi, 0, hi⟩ : FenwickSet).max_val_excluded
          show w < hi
          omega)
    have hempty : (Finset.range hi).filter (fun v => (fun _ => (0 : Int)) v = 1) = ∅ := by
      apply Finset.filter_false_of_mem
      intro x hx
      norm_num
    have hmax0 : (⟨FenwickTree.new hi, 0, hi⟩ : FenwickSet).max_val_excluded = hi := rfl
    rw [hmax0] at ha2 ha3
    rw [hempty] at ha3
    rw [hseq, hfold]
    refine ⟨ha2, ?_⟩
    intro v
    rw [contains_iff ha1 v, ha2]
    constructor
    · rintro ⟨hv, hav⟩
      have hmem : v ∈ (Finset.range hi).filter (fun x => a' x = 1) := by
        simp [hv, hav]
      rw [ha3] at hmem
      rw [runRef_ins_mem] at hmem
      rcases hmem with hmem | hmem
      · exact absurd hmem (by simp)
      · rw [List.mem_range'_1] at hmem
        omega
    · intro hv
      have hmem : v ∈ runRef ∅ ((List.range' lo (hi - lo)).map Op.ins) := by
        rw [runRef_ins_mem]
        right
        rw [List.mem_range'_1]
        omega
      rw [← ha3, Finset.mem_filter, Finset.mem_range] at hmem
      exact ⟨hmem.1, hmem.2⟩

theorem C10_witness :
    FenwickSet.from_range 50000001 50000001 = none ∧
    (4 : Nat) ≤ 50000000 ∧
    FenwickSet.from_range 2 4 =
      some ⟨⟨[0, 0, 0, 1, 2], 4⟩, 2, 4⟩ ∧
    ((⟨⟨[0, 0, 0, 1, 2], 4⟩, 2, 4⟩ : FenwickSet).max_val_excluded = 4 ∧
      ∀ v, ((⟨⟨[0, 0, 0, 1, 2], 4⟩, 2, 4⟩ : FenwickSet).contains v = true ↔ 2 ≤ v ∧ v < 4)) :=
  ⟨(C10_from_range 50000001 50000001).1 (by norm_num), by norm_num, by decide,
    (C10_from_range 2 4).2 (by norm_num) _ (by decide)⟩
